import Mathlib

/-!
Verification development for the obsidian-diff-viewer repository.

Shallow embedding of the three core components:
* the change-classifier (`FileWatcher` in the source): per-path snapshots,
  internal-edit markers backed by debounce timers, and pending-external
  tracking, driven by vault events;
* the patience diff engine (`patienceDiff` and its helpers);
* the unchanged-range folding computation (`computeUnchangedRanges`).

JavaScript `Map`s are embedded as association lists with unique keys
(`Map.set` replaces in place, `Map.get` is `lookupA`), JS `Set`s as lists
of keys, and array indices (which may legitimately be `-1` in the diff
engine) as `Int`.
-/

/-! ## Generic association-list and range utilities -/

/-- Lookup in an association list (embedding of JS `Map.get`). -/
def lookupA {κ α : Type} [DecidableEq κ] : List (κ × α) → κ → Option α
  | [], _ => none
  | (k, v) :: rest, q => if k = q then some v else lookupA rest q

/-- Update-or-append in an association list (embedding of JS `Map.set`,
which replaces the value of an existing key in place and otherwise appends). -/
def setA {κ α : Type} [DecidableEq κ] : List (κ × α) → κ → α → List (κ × α)
  | [], k, v => [(k, v)]
  | (k', v') :: rest, k, v =>
    if k' = k then (k, v) :: rest else (k', v') :: setA rest k v

/-- Key removal from an association list (embedding of JS `Map.delete`). -/
def delA {κ α : Type} [DecidableEq κ] : List (κ × α) → κ → List (κ × α)
  | [], _ => []
  | (k', v') :: rest, k => if k' = k then delA rest k else (k', v') :: delA rest k

/-- Add to a set-as-list (embedding of JS `Set.add`). -/
def addS {κ : Type} [DecidableEq κ] (l : List κ) (k : κ) : List κ :=
  if k ∈ l then l else l ++ [k]

/-- Remove from a set-as-list (embedding of JS `Set.delete`). -/
def eraseS {κ : Type} [DecidableEq κ] (l : List κ) (k : κ) : List κ :=
  l.filter (fun e => e ≠ k)

theorem lookupA_setA_self {κ α : Type} [DecidableEq κ] (l : List (κ × α)) (k : κ) (v : α) :
    lookupA (setA l k v) k = some v := by
  induction l with
  | nil => simp [setA, lookupA]
  | cons e rest ih =>
    obtain ⟨k', v'⟩ := e
    by_cases h : k' = k <;> simp [setA, lookupA, h, ih]

theorem lookupA_setA_ne {κ α : Type} [DecidableEq κ] (l : List (κ × α)) (k q : κ) (v : α)
    (hne : k ≠ q) : lookupA (setA l k v) q = lookupA l q := by
  induction l with
  | nil => simp [setA, lookupA, hne]
  | cons e rest ih =>
    obtain ⟨k', v'⟩ := e
    by_cases h : k' = k
    · subst h
      simp [setA, lookupA, hne]
    · simp [setA, lookupA, h, ih]

theorem lookupA_delA_ne {κ α : Type} [DecidableEq κ] (l : List (κ × α)) (k q : κ)
    (hne : k ≠ q) : lookupA (delA l k) q = lookupA l q := by
  induction l with
  | nil => rfl
  | cons e rest ih =>
    obtain ⟨k', v'⟩ := e
    by_cases h : k' = k
    · subst h
      simp [delA, lookupA, hne, ih]
    · simp [delA, lookupA, h, ih]

theorem lookupA_delA_self {κ α : Type} [DecidableEq κ] (l : List (κ × α)) (k : κ) :
    lookupA (delA l k) k = none := by
  induction l with
  | nil => rfl
  | cons e rest ih =>
    obtain ⟨k', v'⟩ := e
    by_cases h : k' = k
    · simp [delA, h, ih]
    · simp [delA, lookupA, h, ih]

theorem lookupA_mem {κ α : Type} [DecidableEq κ] {l : List (κ × α)} {k : κ} {v : α}
    (h : lookupA l k = some v) : (k, v) ∈ l := by
  induction l with
  | nil => simp [lookupA] at h
  | cons e rest ih =>
    obtain ⟨k', v'⟩ := e
    by_cases hk : k' = k
    · subst hk
      simp [lookupA] at h
      simp [h]
    · simp [lookupA, hk] at h
      simp [ih h]

theorem mem_lookupA {κ α : Type} [DecidableEq κ] {l : List (κ × α)} {k : κ} {v : α}
    (hnd : (l.map Prod.fst).Nodup) (h : (k, v) ∈ l) : lookupA l k = some v := by
  induction l with
  | nil => simp at h
  | cons e rest ih =>
    obtain ⟨k', v'⟩ := e
    rw [List.map_cons, List.nodup_cons] at hnd
    rcases List.mem_cons.1 h with h | h
    · obtain ⟨h1, h2⟩ := Prod.mk.injEq .. ▸ h
      simp [lookupA, h1.symm, h2]
    · have hk : k' ≠ k := by
        intro hk
        subst hk
        exact hnd.1 (List.mem_map.2 ⟨(k', v), h, rfl⟩)
      simp [lookupA, hk, ih hnd.2 h]

/-! ### Integer ranges -/

/-- Auxiliary: `n` consecutive integers starting at `lo`. -/
def intRangeAux : Nat → Int → List Int
  | 0, _ => []
  | n + 1, lo => lo :: intRangeAux n (lo + 1)

/-- The integer range `[lo..hi]` inclusive (empty when `hi < lo`). -/
def intRange (lo hi : Int) : List Int :=
  intRangeAux (hi + 1 - lo).toNat lo

theorem mem_intRangeAux {n : Nat} {lo i : Int} :
    i ∈ intRangeAux n lo ↔ lo ≤ i ∧ i < lo + n := by
  induction n generalizing lo with
  | zero => simp [intRangeAux]
  | succ m ih =>
    simp [intRangeAux, ih]
    omega

theorem mem_intRange {lo hi i : Int} : i ∈ intRange lo hi ↔ lo ≤ i ∧ i ≤ hi := by
  rw [intRange, mem_intRangeAux]
  omega

theorem intRange_empty {lo hi : Int} (h : hi < lo) : intRange lo hi = [] := by
  have : (hi + 1 - lo).toNat = 0 := by omega
  simp [intRange, this, intRangeAux]

theorem intRange_cons {lo hi : Int} (h : lo ≤ hi) :
    intRange lo hi = lo :: intRange (lo + 1) hi := by
  have h1 : (hi + 1 - lo).toNat = (hi + 1 - (lo + 1)).toNat + 1 := by omega
  simp [intRange, h1, intRangeAux]

theorem intRangeAux_append (m n : Nat) (lo : Int) :
    intRangeAux (m + n) lo = intRangeAux m lo ++ intRangeAux n (lo + m) := by
  induction m generalizing lo with
  | zero => simp [intRangeAux]
  | succ k ih =>
    have : k + 1 + n = (k + n) + 1 := by omega
    simp only [this, intRangeAux, ih, List.cons_append]
    have : lo + 1 + (k : Int) = lo + ((k : Int) + 1) := by omega
    simp [this]

theorem intRange_append {lo m hi : Int} (h1 : lo ≤ m) (h2 : m ≤ hi + 1) :
    intRange lo (m - 1) ++ intRange m hi = intRange lo hi := by
  have hsplit : (hi + 1 - lo).toNat = (m - 1 + 1 - lo).toNat + (hi + 1 - m).toNat := by omega
  rw [intRange, intRange, intRange, hsplit, intRangeAux_append]
  congr 2
  omega

theorem intRangeAux_map_add (n : Nat) (lo d : Int) :
    (intRangeAux n lo).map (fun i => i + d) = intRangeAux n (lo + d) := by
  induction n generalizing lo with
  | zero => simp [intRangeAux]
  | succ k ih =>
    simp only [intRangeAux, List.map_cons, ih]
    have : lo + d + 1 = lo + 1 + d := by omega
    simp [this]

theorem intRange_map_add (lo hi d : Int) :
    (intRange lo hi).map (fun i => i + d) = intRange (lo + d) (hi + d) := by
  rw [intRange, intRange, intRangeAux_map_add]
  congr 1
  omega

theorem intRange_length (lo hi : Int) :
    (intRange lo hi).length = (hi + 1 - lo).toNat := by
  rw [intRange]
  generalize (hi + 1 - lo).toNat = n
  induction n generalizing lo with
  | zero => simp [intRangeAux]
  | succ k ih => simp [intRangeAux, ih]

/-! ## Change classifier (`FileWatcher`, src part_000)

The watcher owns per-path snapshots, the internal-edit marker set, the
pending-external set and the debounce-timer map.  The host runtime's
outstanding `setTimeout` callbacks are modelled explicitly: `activeTimers`
lists `(id, path)` for every armed, not-yet-fired, not-yet-cancelled timer,
and `nextTimer` generates fresh ids.  `clearTimeout` removes an entry,
and a timer can only fire while its entry is present.

External inputs that the source reads from the host (`cachedRead` content,
the `instanceof TFile`/markdown-extension checks, and the
`editorHasContent` live-view query) are carried as fields of the event. -/

/-- A report delivered through the `onExternalChange` callback. -/
structure Report where
  path : String
  oldContent : String
  newContent : String
deriving DecidableEq, Repr

/-- State of the `FileWatcher` class plus the modelled timer runtime. -/
structure WatcherState where
  /-- `settings.enabled` as read by `handleModify`. -/
  enabled : Bool
  /-- `private snapshots = new Map<string, string>()` -/
  snapshots : List (String × String)
  /-- `private recentlyEditedInternally = new Set<string>()` -/
  recentlyEditedInternally : List String
  /-- `private pendingExternalPaths = new Set<string>()` -/
  pendingExternalPaths : List String
  /-- `private debounceTimers = new Map<string, timer>()`, storing timer ids. -/
  debounceTimers : List (String × Nat)
  /-- Outstanding timers of the host runtime: `(id, path)` pairs whose
  expiry callback will clear `path`'s marker. -/
  activeTimers : List (Nat × String)
  /-- Fresh timer-id source of the host runtime. -/
  nextTimer : Nat
deriving DecidableEq, Repr

/-- Events delivered to the watcher.  `isMd` carries the result of the
`file instanceof TFile && file.extension === "md"` check, `isFile` the bare
`instanceof TFile` check, `editorHas` the result of `editorHasContent`. -/
inductive VOp where
  | modify (path : String) (isMd : Bool) (newContent : String) (editorHas : Bool)
  | create (path : String) (isMd : Bool) (content : String)
  | delete (path : String) (isFile : Bool)
  | rename (newPath oldPath : String) (isFile : Bool)
  | markInternal (path : String)
  | updateSnapshot (path : String) (content : String)
  | timerFire (id : Nat)
  | destroy
deriving DecidableEq, Repr

/-- One watcher step: the handler dispatched for the event, returning the
new state and the reports emitted through `onExternalChange`. -/
def applyOp (s : WatcherState) : VOp → WatcherState × List Report
  | .modify path isMd newContent editorHas =>
    if ¬ isMd then (s, [])
    else if ¬ s.enabled then (s, [])
    else
      match lookupA s.snapshots path with
      | none => ({ s with snapshots := setA s.snapshots path newContent }, [])
      | some oldContent =>
        if oldContent = newContent then
          ({ s with snapshots := setA s.snapshots path newContent }, [])
        else if path ∈ s.pendingExternalPaths then
          (s, [⟨path, oldContent, newContent⟩])
        else if path ∈ s.recentlyEditedInternally then
          ({ s with snapshots := setA s.snapshots path newContent }, [])
        else if editorHas then
          ({ s with snapshots := setA s.snapshots path newContent }, [])
        else
          ({ s with pendingExternalPaths := addS s.pendingExternalPaths path },
           [⟨path, oldContent, newContent⟩])
  | .create path isMd content =>
    if ¬ isMd then (s, [])
    else ({ s with snapshots := setA s.snapshots path content }, [])
  | .delete path isFile =>
    if ¬ isFile then (s, [])
    else ({ s with
             snapshots := delA s.snapshots path,
             recentlyEditedInternally := eraseS s.recentlyEditedInternally path }, [])
  | .rename newPath oldPath isFile =>
    if ¬ isFile then (s, [])
    else
      let snaps :=
        match lookupA s.snapshots oldPath with
        | some content => setA (delA s.snapshots oldPath) newPath content
        | none => s.snapshots
      let recent :=
        if oldPath ∈ s.recentlyEditedInternally then
          addS (eraseS s.recentlyEditedInternally oldPath) newPath
        else s.recentlyEditedInternally
      ({ s with snapshots := snaps, recentlyEditedInternally := recent }, [])
  | .markInternal path =>
    let recent := addS s.recentlyEditedInternally path
    let active :=
      match lookupA s.debounceTimers path with
      | some tid => s.activeTimers.filter (fun t => t.1 ≠ tid)
      | none => s.activeTimers
    ({ s with
        recentlyEditedInternally := recent,
        activeTimers := active ++ [(s.nextTimer, path)],
        debounceTimers := setA s.debounceTimers path s.nextTimer,
        nextTimer := s.nextTimer + 1 }, [])
  | .updateSnapshot path content =>
    ({ s with
        snapshots := setA s.snapshots path content,
        pendingExternalPaths := eraseS s.pendingExternalPaths path }, [])
  | .timerFire id =>
    match lookupA s.activeTimers id with
    | none => (s, [])
    | some path =>
      ({ s with
          activeTimers := s.activeTimers.filter (fun t => t.1 ≠ id),
          recentlyEditedInternally := eraseS s.recentlyEditedInternally path,
          debounceTimers := delA s.debounceTimers path }, [])
  | .destroy =>
    ({ s with
        activeTimers :=
          s.activeTimers.filter (fun t => ¬ s.debounceTimers.any (fun d => d.2 = t.1)),
        debounceTimers := [],
        recentlyEditedInternally := [],
        pendingExternalPaths := [],
        snapshots := [] }, [])

/-- Watcher state right after construction and `start()`: `snaps` holds the
seeded snapshots, everything else is empty. -/
def initState (enabled : Bool) (snaps : List (String × String)) : WatcherState :=
  ⟨enabled, snaps, [], [], [], [], 0⟩

/-- Run a sequence of events, accumulating emitted reports in order. -/
def runOps (s : WatcherState) : List VOp → WatcherState × List Report
  | [] => (s, [])
  | op :: rest =>
    let (s', reps) := applyOp s op
    let (s'', reps') := runOps s' rest
    (s'', reps ++ reps')

/-! ### Small membership lemmas for the set/map embeddings -/

theorem mem_addS_of_mem {κ : Type} [DecidableEq κ] {l : List κ} {p q : κ} (h : p ∈ l) :
    p ∈ addS l q := by
  unfold addS
  split <;> simp [h]

theorem mem_addS_self {κ : Type} [DecidableEq κ] (l : List κ) (q : κ) : q ∈ addS l q := by
  unfold addS
  split <;> simp_all

theorem mem_eraseS_ne {κ : Type} [DecidableEq κ] {l : List κ} {p q : κ} (hne : p ≠ q) :
    p ∈ eraseS l q ↔ p ∈ l := by
  simp [eraseS, List.mem_filter, hne]

theorem not_mem_eraseS_self {κ : Type} [DecidableEq κ] (l : List κ) (q : κ) :
    q ∉ eraseS l q := by
  simp [eraseS, List.mem_filter]

theorem mem_setA {κ α : Type} [DecidableEq κ] {l : List (κ × α)} {k : κ} {v : α} {e : κ × α}
    (h : e ∈ setA l k v) : e ∈ l ∨ e = (k, v) := by
  induction l with
  | nil => simp [setA] at h; simp [h]
  | cons f rest ih =>
    obtain ⟨k', v'⟩ := f
    by_cases hk : k' = k
    · simp [setA, hk] at h
      rcases h with h | h
      · simp [h]
      · simp [h]
    · simp [setA, hk] at h
      rcases h with h | h
      · simp [h]
      · rcases ih h with h2 | h2
        · simp [h2]
        · simp [h2]

theorem mem_delA {κ α : Type} [DecidableEq κ] {l : List (κ × α)} {k : κ} {e : κ × α}
    (h : e ∈ delA l k) : e ∈ l := by
  induction l with
  | nil => simp [delA] at h
  | cons f rest ih =>
    obtain ⟨k', v'⟩ := f
    by_cases hk : k' = k
    · simp [delA, hk] at h
      simp [ih h]
    · simp [delA, hk] at h
      rcases h with h | h
      · simp [h]
      · simp [ih h]

theorem length_le_one_of_nodup_of_all_eq {α : Type} (l : List α) (hnd : l.Nodup)
    (hall : ∀ a ∈ l, ∀ b ∈ l, a = b) : l.length ≤ 1 := by
  match l with
  | [] => simp
  | [x] => simp
  | x :: y :: rest =>
    exfalso
    have hxy : x = y := hall x (by simp) y (by simp)
    rw [List.nodup_cons] at hnd
    exact hnd.1 (hxy ▸ List.mem_cons_self y rest)

/-! ### The no-op and first-observation behaviours of `handleModify` -/

/-- C10: with `settings.enabled` false, `handleModify` is a complete no-op:
the returned state is unchanged in every field and no report is emitted,
even for a markdown file whose content differs from its snapshot. -/
theorem handleModify_disabled_noop (s : WatcherState) (p : String) (isMd : Bool)
    (C : String) (eh : Bool) (hdis : s.enabled = false) :
    applyOp s (.modify p isMd C eh) = (s, []) := by
  cases isMd <;> simp [applyOp, hdis]

/-- Witness for `handleModify_disabled_noop` at a concrete state whose
snapshot for "p" differs from the incoming content. -/
theorem handleModify_disabled_noop_witness :
    (initState false [("p", "a")]).enabled = false ∧
      applyOp (initState false [("p", "a")]) (.modify "p" true "b" false)
        = (initState false [("p", "a")], []) :=
  ⟨by decide, handleModify_disabled_noop (initState false [("p", "a")]) "p" true "b" false
    (by decide)⟩

/-- C9: when no snapshot exists for the path, or the new content equals the
snapshot, `handleModify` stores the new content as the snapshot, emits no
report, and leaves the pending set (and every other field) unchanged. -/
theorem handleModify_first_observation (s : WatcherState) (p : String) (C : String)
    (eh : Bool) (hen : s.enabled = true)
    (hsnap : lookupA s.snapshots p = none ∨ lookupA s.snapshots p = some C) :
    applyOp s (.modify p true C eh)
      = ({ s with snapshots := setA s.snapshots p C }, []) := by
  rcases hsnap with h | h <;> simp [applyOp, hen, h]

/-- Witness for `handleModify_first_observation`: an untracked path is
snapshotted without any report or pending entry. -/
theorem handleModify_first_observation_witness :
    (initState true []).enabled = true ∧ lookupA (initState true []).snapshots "p" = none ∧
      applyOp (initState true []) (.modify "p" true "c" false)
        = ({ initState true [] with snapshots := setA [] "p" "c" }, []) :=
  ⟨by decide, by decide,
    handleModify_first_observation (initState true []) "p" "c" false (by decide)
      (Or.inl (by decide))⟩

/-- C5: with a live internal marker (path in `recentlyEditedInternally`),
a non-pending path whose content changed is absorbed silently (snapshot
updated, no report); with the marker expired and no live view showing the
content, the same modification is classified external: the path is added
to the pending set, a report is emitted, and the snapshot is not updated. -/
theorem handleModify_internal_marker (s : WatcherState) (p : String) (C v : String)
    (hen : s.enabled = true) (hsnap : lookupA s.snapshots p = some v) (hne : v ≠ C)
    (hpend : p ∉ s.pendingExternalPaths) :
    (∀ eh : Bool, p ∈ s.recentlyEditedInternally →
      applyOp s (.modify p true C eh) = ({ s with snapshots := setA s.snapshots p C }, [])) ∧
    (p ∉ s.recentlyEditedInternally →
      applyOp s (.modify p true C false)
        = ({ s with pendingExternalPaths := addS s.pendingExternalPaths p }, [⟨p, v, C⟩])) := by
  constructor
  · intro eh hrec
    simp [applyOp, hen, hsnap, hne, hpend, hrec]
  · intro hrec
    simp [applyOp, hen, hsnap, hne, hpend, hrec]

/-- Witness for `handleModify_internal_marker`: a state with a snapshot and
a live marker absorbs the edit, and the marker-free state reports it. -/
theorem handleModify_internal_marker_witness :
    ((⟨true, [("p", "a")], ["p"], [], [], [], 0⟩ : WatcherState).enabled = true ∧
      lookupA (⟨true, [("p", "a")], ["p"], [], [], [], 0⟩ : WatcherState).snapshots "p"
        = some "a" ∧ "a" ≠ "b") ∧
    applyOp (⟨true, [("p", "a")], ["p"], [], [], [], 0⟩ : WatcherState)
        (.modify "p" true "b" false)
      = ({ (⟨true, [("p", "a")], ["p"], [], [], [], 0⟩ : WatcherState) with
            snapshots := setA [("p", "a")] "p" "b" }, []) :=
  ⟨⟨by decide, by decide, by decide⟩,
    (handleModify_internal_marker (⟨true, [("p", "a")], ["p"], [], [], [], 0⟩ : WatcherState)
      "p" "b" "a" (by decide) (by decide) (by decide) (by decide)).1 false (by decide)⟩

/-! ### Frozen baseline while pending (C2) -/

/-- Events that do not tamper with path `p`'s snapshot entry from outside
`handleModify`: anything except a create/delete/rename touching `p`, an
`updateSnapshot` for `p`, or `destroy`. -/
def keepsBaseline (p : String) : VOp → Bool
  | .create q _ _ => if q = p then false else true
  | .delete q _ => if q = p then false else true
  | .rename nq oq _ => if nq = p ∨ oq = p then false else true
  | .updateSnapshot q _ => if q = p then false else true
  | .destroy => false
  | _ => true

/-- Single-step freeze: if `p` is pending with snapshot value `v`, any
baseline-keeping event leaves `p` pending with snapshot value `v`, and any
report it emits for `p` carries `v` as the old content. -/
theorem applyOp_freeze (s : WatcherState) (op : VOp) (p v : String)
    (hk : keepsBaseline p op = true) (hp : p ∈ s.pendingExternalPaths)
    (hv : lookupA s.snapshots p = some v) :
    p ∈ (applyOp s op).1.pendingExternalPaths ∧
    lookupA (applyOp s op).1.snapshots p = some v ∧
    ∀ r ∈ (applyOp s op).2, r.path = p → r.oldContent = v := by
  cases op with
  | modify q md C eh =>
    cases md with
    | false => simp [applyOp, hp, hv]
    | true =>
      by_cases hen : s.enabled = true
      · by_cases hq : q = p
        · subst hq
          by_cases hC : v = C
          · subst hC
            simp [applyOp, hen, hv, hp, lookupA_setA_self]
          · simp [applyOp, hen, hv, hC, hp]
        · rcases h2 : lookupA s.snapshots q with _ | w
          · simp [applyOp, hen, h2, hp, lookupA_setA_ne _ _ _ _ hq, hv]
          · by_cases hC : w = C
            · simp [applyOp, hen, h2, hC, hp, lookupA_setA_ne _ _ _ _ hq, hv]
            · by_cases hqp : q ∈ s.pendingExternalPaths
              · simp [applyOp, hen, h2, hC, hqp, hp, hv]
                intro h
                exact absurd h hq
              · by_cases hrec : q ∈ s.recentlyEditedInternally
                · simp [applyOp, hen, h2, hC, hqp, hrec, hp,
                    lookupA_setA_ne _ _ _ _ hq, hv]
                · by_cases heh : eh = true
                  · simp [applyOp, hen, h2, hC, hqp, hrec, heh, hp,
                      lookupA_setA_ne _ _ _ _ hq, hv]
                  · simp [applyOp, hen, h2, hC, hqp, hrec, heh,
                      mem_addS_of_mem hp, hv]
                    intro h
                    exact absurd h hq
      · simp [applyOp, hen, hp, hv]
  | create q md c =>
    have hq : q ≠ p := by
      by_contra h
      simp [keepsBaseline, h] at hk
    cases md <;> simp [applyOp, hp, hv, lookupA_setA_ne _ _ _ _ hq]
  | delete q f =>
    have hq : q ≠ p := by
      by_contra h
      simp [keepsBaseline, h] at hk
    cases f <;> simp [applyOp, hp, hv, lookupA_delA_ne _ _ _ hq]
  | rename nq oq f =>
    have hq : nq ≠ p ∧ oq ≠ p := by
      constructor <;> by_contra h <;> simp [keepsBaseline, h] at hk
    cases f
    · simp [applyOp, hp, hv]
    · rcases h2 : lookupA s.snapshots oq with _ | c
      · simp [applyOp, h2, hp, hv]
      · simp [applyOp, h2, hp, lookupA_setA_ne _ _ _ _ hq.1,
          lookupA_delA_ne _ _ _ hq.2, hv]
  | markInternal q => simp [applyOp, hp, hv]
  | updateSnapshot q c =>
    have hq : q ≠ p := by
      by_contra h
      simp [keepsBaseline, h] at hk
    simp [applyOp, (mem_eraseS_ne (fun h => hq h.symm)).2 hp,
      lookupA_setA_ne _ _ _ _ hq, hv]
  | timerFire id =>
    rcases h2 : lookupA s.activeTimers id with _ | q
    · simp [applyOp, h2, hp, hv]
    · simp [applyOp, h2, hp, hv]
  | destroy => simp [keepsBaseline] at hk

/-- Trace version of the freeze property, by induction over the event list. -/
theorem runOps_freeze (ops : List VOp) (s : WatcherState) (p v : String)
    (hk : ∀ op ∈ ops, keepsBaseline p op = true) (hp : p ∈ s.pendingExternalPaths)
    (hv : lookupA s.snapshots p = some v) :
    p ∈ (runOps s ops).1.pendingExternalPaths ∧
    lookupA (runOps s ops).1.snapshots p = some v ∧
    ∀ r ∈ (runOps s ops).2, r.path = p → r.oldContent = v := by
  induction ops generalizing s with
  | nil => exact ⟨hp, hv, by simp [runOps]⟩
  | cons op rest ih =>
    have hstep := applyOp_freeze s op p v (hk op (by simp)) hp hv
    have hrest := ih (applyOp s op).1 (fun o ho => hk o (by simp [ho])) hstep.1 hstep.2.1
    refine ⟨?_, ?_, ?_⟩
    · simpa [runOps] using hrest.1
    · simpa [runOps] using hrest.2.1
    · intro r hr hrp
      simp only [runOps, List.mem_append] at hr
      rcases hr with hr | hr
      · exact hstep.2.2 r hr hrp
      · exact hrest.2.2 r hr hrp

/-- C2 as literally stated is false: deleting a file does not clear its
pending flag, so after an external edit (path pending) followed by a
delete, the next `handleModify` finds no snapshot and stores the new
content — updating the pending path's snapshot.  Concretely: seed "p" with
"a", external edit to "b" (pending), delete "p", then modify to "c". -/
theorem pendingFreeze_counterexample :
    "p" ∈ WatcherState.pendingExternalPaths (runOps (initState true [])
        [.create "p" true "a", .modify "p" true "b" false, .delete "p" true]).1 ∧
    lookupA (runOps (initState true [])
        [.create "p" true "a", .modify "p" true "b" false, .delete "p" true]).1.snapshots "p"
      = none ∧
    lookupA (applyOp (runOps (initState true [])
        [.create "p" true "a", .modify "p" true "b" false, .delete "p" true]).1
        (.modify "p" true "c" false)).1.snapshots "p" = some "c" := by
  decide

/-- C2 amended: as long as no create/delete/rename event for the path and
no `updateSnapshot`/`destroy` intervenes, a pending path's snapshot value
stays frozen, the path stays pending, and every report for it carries the
frozen value as old content; `updateSnapshot(P, C)` sets the snapshot to
`C` and unpends `P`; and the next external-style edit after resolution is
reported against baseline `C`. -/
theorem pendingFreeze_amended :
    (∀ (ops : List VOp) (s : WatcherState) (p v : String),
        (∀ op ∈ ops, keepsBaseline p op = true) →
        p ∈ s.pendingExternalPaths → lookupA s.snapshots p = some v →
        p ∈ (runOps s ops).1.pendingExternalPaths ∧
        lookupA (runOps s ops).1.snapshots p = some v ∧
        ∀ r ∈ (runOps s ops).2, r.path = p → r.oldContent = v) ∧
    (∀ (s : WatcherState) (p C : String),
        lookupA (applyOp s (.updateSnapshot p C)).1.snapshots p = some C ∧
        p ∉ (applyOp s (.updateSnapshot p C)).1.pendingExternalPaths ∧
        (applyOp s (.updateSnapshot p C)).2 = []) ∧
    (∀ (s : WatcherState) (p C D : String),
        s.enabled = true → C ≠ D → p ∉ s.recentlyEditedInternally →
        applyOp (applyOp s (.updateSnapshot p C)).1 (.modify p true D false)
          = ({ (applyOp s (.updateSnapshot p C)).1 with
                pendingExternalPaths :=
                  addS (applyOp s (.updateSnapshot p C)).1.pendingExternalPaths p },
             [⟨p, C, D⟩])) := by
  refine ⟨runOps_freeze, ?_, ?_⟩
  · intro s p C
    exact ⟨by simp [applyOp, lookupA_setA_self], by simp [applyOp, not_mem_eraseS_self],
      by simp [applyOp]⟩
  · intro s p C D hen hCD hrec
    have h2 : lookupA (setA s.snapshots p C) p = some C := lookupA_setA_self _ _ _
    have h3 : p ∉ eraseS s.pendingExternalPaths p := not_mem_eraseS_self _ _
    have hCD' : ¬ (C = D) := hCD
    simp [applyOp, hen, h2, h3, hrec, hCD']

/-- Witness for `pendingFreeze_amended`: one accumulating external edit on a
pending path reports against the frozen value "a" and leaves it frozen. -/
theorem pendingFreeze_amended_witness :
    ((∀ op ∈ [VOp.modify "p" true "c" false], keepsBaseline "p" op = true) ∧
      "p" ∈ (⟨true, [("p", "a")], [], ["p"], [], [], 0⟩ : WatcherState).pendingExternalPaths ∧
      lookupA (⟨true, [("p", "a")], [], ["p"], [], [], 0⟩ : WatcherState).snapshots "p"
        = some "a") ∧
    ("p" ∈ (runOps (⟨true, [("p", "a")], [], ["p"], [], [], 0⟩ : WatcherState)
          [VOp.modify "p" true "c" false]).1.pendingExternalPaths ∧
      lookupA (runOps (⟨true, [("p", "a")], [], ["p"], [], [], 0⟩ : WatcherState)
          [VOp.modify "p" true "c" false]).1.snapshots "p" = some "a" ∧
      ∀ r ∈ (runOps (⟨true, [("p", "a")], [], ["p"], [], [], 0⟩ : WatcherState)
          [VOp.modify "p" true "c" false]).2, r.path = "p" → r.oldContent = "a") :=
  ⟨⟨by decide, by decide, by decide⟩,
    pendingFreeze_amended.1 [VOp.modify "p" true "c" false]
      (⟨true, [("p", "a")], [], ["p"], [], [], 0⟩ : WatcherState) "p" "a"
      (by decide) (by decide) (by decide)⟩

/-! ### Timer discipline (C7, C8) -/

/-- Runtime timer invariant: active timer ids are distinct and below the
fresh-id counter, and the active timers are exactly the ones recorded in
`debounceTimers` (one per marked path). -/
def timerInv (s : WatcherState) : Prop :=
  (s.activeTimers.map Prod.fst).Nodup ∧
  (∀ t ∈ s.activeTimers, t.1 < s.nextTimer) ∧
  (∀ d ∈ s.debounceTimers, d.2 < s.nextTimer) ∧
  (∀ id p, (id, p) ∈ s.activeTimers ↔ lookupA s.debounceTimers p = some id)

theorem timerInv_init (enabled : Bool) (snaps : List (String × String)) :
    timerInv (initState enabled snaps) := by
  refine ⟨by simp [initState], by simp [initState], by simp [initState], ?_⟩
  intro id p
  simp [initState, lookupA]

theorem pair_eq_of_id_eq {l : List (Nat × String)} (hnd : (l.map Prod.fst).Nodup)
    {a b : Nat × String} (ha : a ∈ l) (hb : b ∈ l) (h : a.1 = b.1) : a = b :=
  List.inj_on_of_nodup_map hnd ha hb h

theorem timerInv_applyOp (s : WatcherState) (op : VOp) (h : timerInv s) :
    timerInv (applyOp s op).1 := by
  obtain ⟨hnd, hlt, hdlt, hiff⟩ := h
  cases op with
  | modify q md C eh =>
    have : (applyOp s (.modify q md C eh)).1.activeTimers = s.activeTimers ∧
        (applyOp s (.modify q md C eh)).1.debounceTimers = s.debounceTimers ∧
        (applyOp s (.modify q md C eh)).1.nextTimer = s.nextTimer := by
      cases md with
      | false => simp [applyOp]
      | true =>
        by_cases hen : s.enabled = true
        · rcases h2 : lookupA s.snapshots q with _ | w
          · simp [applyOp, hen, h2]
          · by_cases hC : w = C
            · simp [applyOp, hen, h2, hC]
            · by_cases hqp : q ∈ s.pendingExternalPaths
              · simp [applyOp, hen, h2, hC, hqp]
              · by_cases hrec : q ∈ s.recentlyEditedInternally
                · simp [applyOp, hen, h2, hC, hqp, hrec]
                · by_cases heh : eh = true <;>
                    simp [applyOp, hen, h2, hC, hqp, hrec, heh]
        · simp [applyOp, hen]
    exact ⟨this.1 ▸ hnd, this.1 ▸ this.2.2 ▸ hlt, this.2.1 ▸ this.2.2 ▸ hdlt,
      fun id p => this.1 ▸ this.2.1 ▸ hiff id p⟩
  | create q md c =>
    cases md with
    | false => exact ⟨hnd, hlt, hdlt, hiff⟩
    | true => exact ⟨hnd, hlt, hdlt, hiff⟩
  | delete q f =>
    cases f with
    | false => exact ⟨hnd, hlt, hdlt, hiff⟩
    | true => exact ⟨hnd, hlt, hdlt, hiff⟩
  | rename nq oq f =>
    cases f with
    | false => exact ⟨hnd, hlt, hdlt, hiff⟩
    | true => exact ⟨hnd, hlt, hdlt, hiff⟩
  | markInternal q =>
    rcases hdq : lookupA s.debounceTimers q with _ | tid
    -- no previous timer for q
    · simp only [applyOp, hdq]
      refine ⟨?_, ?_, ?_, ?_⟩
      · simp only [List.map_append, List.map_cons, List.map_nil]
        rw [List.nodup_append]
        refine ⟨hnd, by simp, ?_⟩
        intro a ha
        simp only [List.mem_map] at ha
        obtain ⟨t, ht, rfl⟩ := ha
        simp only [List.mem_singleton]
        intro hcon
        exact absurd (hcon ▸ hlt t ht) (lt_irrefl _)
      · intro t ht
        rcases List.mem_append.1 ht with ht | ht
        · exact Nat.lt_succ_of_lt (hlt t ht)
        · rw [List.mem_singleton.1 ht]
          exact Nat.lt_succ_self _
      · intro d hd
        rcases mem_setA hd with hd | hd
        · exact Nat.lt_succ_of_lt (hdlt d hd)
        · simp [hd]
      · intro id p
        by_cases hp : p = q
        · subst hp
          rw [lookupA_setA_self]
          constructor
          · intro hin
            rcases List.mem_append.1 hin with hin | hin
            · exact absurd ((hiff id p).1 hin) (by simp [hdq])
            · have h1 : id = s.nextTimer := congrArg Prod.fst (List.mem_singleton.1 hin)
              rw [h1]
          · intro hsome
            have h1 : s.nextTimer = id := by injection hsome
            apply List.mem_append.2
            right
            simp [h1]
        · rw [lookupA_setA_ne _ _ _ _ (fun hh => hp hh.symm)]
          constructor
          · intro hin
            rcases List.mem_append.1 hin with hin | hin
            · exact (hiff id p).1 hin
            · exact absurd (congrArg Prod.snd (List.mem_singleton.1 hin)) hp
          · intro hh
            exact List.mem_append.2 (Or.inl ((hiff id p).2 hh))
    -- a previous timer tid for q is cancelled first
    · simp only [applyOp, hdq]
      refine ⟨?_, ?_, ?_, ?_⟩
      · simp only [List.map_append, List.map_cons, List.map_nil]
        rw [List.nodup_append]
        refine ⟨hnd.sublist ((List.filter_sublist _).map Prod.fst), by simp, ?_⟩
        intro a ha
        simp only [List.mem_map] at ha
        obtain ⟨t, ht, rfl⟩ := ha
        simp only [List.mem_singleton]
        intro hcon
        exact absurd (hcon ▸ hlt t (List.mem_of_mem_filter ht)) (lt_irrefl _)
      · intro t ht
        rcases List.mem_append.1 ht with ht | ht
        · exact Nat.lt_succ_of_lt (hlt t (List.mem_of_mem_filter ht))
        · rw [List.mem_singleton.1 ht]
          exact Nat.lt_succ_self _
      · intro d hd
        rcases mem_setA hd with hd | hd
        · exact Nat.lt_succ_of_lt (hdlt d hd)
        · simp [hd]
      · intro id p
        by_cases hp : p = q
        · subst hp
          rw [lookupA_setA_self]
          constructor
          · intro hin
            rcases List.mem_append.1 hin with hin | hin
            · have h1 := (hiff id p).1 (List.mem_of_mem_filter hin)
              have h2 : id = tid := by
                rw [hdq] at h1
                injection h1 with h1
                exact h1.symm
              have h3 := List.of_mem_filter hin
              simp [h2] at h3
            · have h1 : id = s.nextTimer := congrArg Prod.fst (List.mem_singleton.1 hin)
              rw [h1]
          · intro hsome
            have h1 : s.nextTimer = id := by injection hsome
            apply List.mem_append.2
            right
            simp [h1]
        · rw [lookupA_setA_ne _ _ _ _ (fun hh => hp hh.symm)]
          constructor
          · intro hin
            rcases List.mem_append.1 hin with hin | hin
            · exact (hiff id p).1 (List.mem_of_mem_filter hin)
            · exact absurd (congrArg Prod.snd (List.mem_singleton.1 hin)) hp
          · intro hh
            have hin := (hiff id p).2 hh
            apply List.mem_append.2
            left
            apply List.mem_filter.2
            refine ⟨hin, ?_⟩
            simp only [ne_eq, decide_not, Bool.not_eq_eq_eq_not, Bool.not_true,
              decide_eq_false_iff_not]
            intro hcon
            have htid : (tid, q) ∈ s.activeTimers := (hiff tid q).2 hdq
            have heq := pair_eq_of_id_eq hnd hin htid hcon
            exact hp (congrArg Prod.snd heq)
  | updateSnapshot q c => exact ⟨hnd, hlt, hdlt, hiff⟩
  | timerFire id =>
    rcases hact : lookupA s.activeTimers id with _ | q
    · simpa [applyOp, hact] using ⟨hnd, hlt, hdlt, hiff⟩
    · have hmem : (id, q) ∈ s.activeTimers := lookupA_mem hact
      have hdq : lookupA s.debounceTimers q = some id := (hiff id q).1 hmem
      simp only [applyOp, hact]
      refine ⟨hnd.sublist ((List.filter_sublist _).map Prod.fst), ?_, ?_, ?_⟩
      · exact fun t ht => hlt t (List.mem_of_mem_filter ht)
      · intro d hd
        exact hdlt d (mem_delA hd)
      · intro j p
        constructor
        · intro hin
          have hj := (hiff j p).1 (List.mem_of_mem_filter hin)
          have hjne : j ≠ id := by
            have := List.of_mem_filter hin
            simpa using this
          by_cases hpq : p = q
          · subst hpq
            rw [hdq] at hj
            exact absurd (by injection hj with hh; exact hh.symm) hjne
          · rw [lookupA_delA_ne _ _ _ (fun hh => hpq hh.symm)]
            exact hj
        · intro hj
          by_cases hpq : p = q
          · subst hpq
            rw [lookupA_delA_self] at hj
            exact absurd hj (by simp)
          · rw [lookupA_delA_ne _ _ _ (fun hh => hpq hh.symm)] at hj
            have hin := (hiff j p).2 hj
            apply List.mem_filter.2
            refine ⟨hin, ?_⟩
            simp only [ne_eq, decide_not, Bool.not_eq_eq_eq_not, Bool.not_true,
              decide_eq_false_iff_not]
            intro hcon
            have heq := pair_eq_of_id_eq hnd hin hmem hcon
            exact hpq (congrArg Prod.snd heq)
  | destroy =>
    have hempty : (applyOp s .destroy).1.activeTimers = [] := by
      simp only [applyOp]
      rw [List.filter_eq_nil_iff]
      intro t ht
      have hd : lookupA s.debounceTimers t.2 = some t.1 := (hiff t.1 t.2).1 (by simpa using ht)
      have : (t.2, t.1) ∈ s.debounceTimers := lookupA_mem hd
      simp only [decide_eq_true_eq, Decidable.not_not, List.any_eq_true]
      exact ⟨(t.2, t.1), this, rfl⟩
    refine ⟨hempty ▸ by simp, hempty ▸ by simp, by simp [applyOp], ?_⟩
    intro id p
    rw [hempty]
    simp [applyOp, lookupA]

theorem timerInv_runOps (enabled : Bool) (snaps : List (String × String)) (ops : List VOp) :
    timerInv (runOps (initState enabled snaps) ops).1 := by
  suffices h : ∀ (s : WatcherState), timerInv s → timerInv (runOps s ops).1 from
    h _ (timerInv_init enabled snaps)
  induction ops with
  | nil => exact fun s hs => hs
  | cons op rest ih =>
    intro s hs
    simpa [runOps] using ih (applyOp s op).1 (timerInv_applyOp s op hs)

/-- C7: in every state reachable from a freshly started watcher, at most one
marker timer is outstanding for any path: `markAsInternalEdit` cancels the
timer stored for the path before installing its replacement under the same
key, so repeated arming never leaves two live timers for one path. -/
theorem marker_timer_unique (enabled : Bool) (snaps : List (String × String))
    (ops : List VOp) (p : String) :
    (((runOps (initState enabled snaps) ops).1.activeTimers).filter
        (fun t => t.2 = p)).length ≤ 1 := by
  obtain ⟨hnd, hlt, hdlt, hiff⟩ := timerInv_runOps enabled snaps ops
  set l := (runOps (initState enabled snaps) ops).1.activeTimers with hl
  apply length_le_one_of_nodup_of_all_eq
  · exact (List.Nodup.of_map Prod.fst hnd).sublist (List.filter_sublist _)
  · intro a ha b hb
    have hap : a.2 = p := by simpa using List.of_mem_filter ha
    have hbp : b.2 = p := by simpa using List.of_mem_filter hb
    have ha' : (a.1, p) ∈ l := by
      have := List.mem_of_mem_filter ha
      rwa [show a = (a.1, p) from Prod.ext rfl hap] at this
    have hb' : (b.1, p) ∈ l := by
      have := List.mem_of_mem_filter hb
      rwa [show b = (b.1, p) from Prod.ext rfl hbp] at this
    have h1 := (hiff a.1 p).1 ha'
    have h2 := (hiff b.1 p).1 hb'
    have hid : a.1 = b.1 := by
      rw [h1] at h2
      injection h2
    exact Prod.ext hid (hap.trans hbp.symm)

/-- C8: after `destroy()` the timer map, marker set, pending set and
snapshot map are all empty, every outstanding debounce timer has been
cancelled (no active timers remain), and firing any timer id afterwards is
a no-op, so no marker expiry callback can run after `destroy` completes. -/
theorem destroy_clears_everything (enabled : Bool) (snaps : List (String × String))
    (ops : List VOp) :
    (applyOp (runOps (initState enabled snaps) ops).1 .destroy).1.debounceTimers = [] ∧
    (applyOp (runOps (initState enabled snaps) ops).1 .destroy).1.recentlyEditedInternally
      = [] ∧
    (applyOp (runOps (initState enabled snaps) ops).1 .destroy).1.pendingExternalPaths = [] ∧
    (applyOp (runOps (initState enabled snaps) ops).1 .destroy).1.snapshots = [] ∧
    (applyOp (runOps (initState enabled snaps) ops).1 .destroy).1.activeTimers = [] ∧
    ∀ id : Nat,
      applyOp (applyOp (runOps (initState enabled snaps) ops).1 .destroy).1 (.timerFire id)
        = ((applyOp (runOps (initState enabled snaps) ops).1 .destroy).1, []) := by
  obtain ⟨hnd, hlt, hdlt, hiff⟩ := timerInv_runOps enabled snaps ops
  set s := (runOps (initState enabled snaps) ops).1 with hs
  have hempty : (applyOp s .destroy).1.activeTimers = [] := by
    simp only [applyOp]
    rw [List.filter_eq_nil_iff]
    intro t ht
    have hd : lookupA s.debounceTimers t.2 = some t.1 := (hiff t.1 t.2).1 (by simpa using ht)
    have : (t.2, t.1) ∈ s.debounceTimers := lookupA_mem hd
    simp only [decide_eq_true_eq, Decidable.not_not, List.any_eq_true]
    exact ⟨(t.2, t.1), this, rfl⟩
  refine ⟨by simp [applyOp], by simp [applyOp], by simp [applyOp], by simp [applyOp],
    hempty, ?_⟩
  intro id
  have hempty' :
      (List.filter (fun t => !s.debounceTimers.any fun d => decide (d.2 = t.1))
        s.activeTimers) = [] := by
    simpa [applyOp] using hempty
  simp [applyOp, hempty', lookupA]

/-! ## Range folder (`computeUnchangedRanges`, src/foldUnchanged.ts)

A CodeMirror `Text` document is embedded as its list of lines (a `Text`
always has at least one line; theorems assume `doc ≠ []`).  Character
positions follow CodeMirror's layout: lines are joined by single newline
characters, `line n` is 1-based, `line(n).from`/`line(n).to` delimit the
line's characters, and `lineAt(pos)` returns the number of the line whose
span contains `pos` (clamped to the last line for out-of-range positions,
matching the `Math.min(doc.length, ...)` clamping at the call site). -/

/-- `doc.lines` of a CodeMirror `Text`. -/
def docLines (doc : List String) : Nat := doc.length

/-- `doc.length` of a CodeMirror `Text`: characters plus inner newlines. -/
def docLength (doc : List String) : Nat :=
  (doc.map String.length).sum + (doc.length - 1)

/-- `doc.line(n).from` for the 1-based line number `n`. -/
def lineFromPos (doc : List String) (n : Nat) : Nat :=
  ((doc.take (n - 1)).map String.length).sum + (n - 1)

/-- `doc.line(n).to` for the 1-based line number `n`. -/
def lineToPos (doc : List String) (n : Nat) : Nat :=
  lineFromPos doc n + (doc.getD (n - 1) "").length

/-- `doc.lineAt(pos).number`: 1-based number of the line containing `pos`
(clamped to the last line for positions beyond the document). -/
def lineAtNum : List String → Nat → Nat
  | [], _ => 1
  | s :: rest, pos =>
    if pos ≤ s.length ∨ rest = [] then 1 else 1 + lineAtNum rest (pos - s.length - 1)

theorem lineAtNum_pos (doc : List String) (pos : Nat) : 1 ≤ lineAtNum doc pos := by
  induction doc generalizing pos with
  | nil => simp [lineAtNum]
  | cons s rest ih =>
    rw [lineAtNum]
    split
    · exact le_refl 1
    · have := ih (pos - s.length - 1)
      omega

theorem lineAtNum_le (doc : List String) (pos : Nat) (h : doc ≠ []) :
    lineAtNum doc pos ≤ doc.length := by
  induction doc generalizing pos with
  | nil => exact absurd rfl h
  | cons s rest ih =>
    rw [lineAtNum]
    split
    · simp
    · rename_i hcond
      have hrest : rest ≠ [] := by
        intro hc
        exact hcond (Or.inr hc)
      have := ih (pos - s.length - 1) hrest
      simp only [List.length_cons]
      omega

/-- A `FoldRange` (character span plus line count). -/
structure FoldRange where
  fromPos : Nat
  toPos : Nat
  lines : Int
deriving DecidableEq, Repr

/-- Which side of a `MergeView` chunk to read. -/
inductive ChunkSide where
  | a
  | b
deriving DecidableEq, Repr

/-- A `MergeView` chunk: character spans of one edit block on both sides. -/
structure MChunk where
  fromA : Nat
  toA : Nat
  fromB : Nat
  toB : Nat
deriving DecidableEq, Repr, Inhabited

def chunkFrom : ChunkSide → MChunk → Nat
  | .a, c => c.fromA
  | .b, c => c.fromB

def chunkTo : ChunkSide → MChunk → Nat
  | .a, c => c.toA
  | .b, c => c.toB

/-- The body of `computeUnchangedRanges`' loop over `i = 0 .. chunks.length`,
written as recursion over the remaining chunks.  `isFirst` tells whether we
are at `i = 0`, and `prevEndLine` carries the loop variable of the same
name.  The iteration with `chunk = null` (after the last block) is the `[]`
case. -/
def curLoop (doc : List String) (side : ChunkSide) (margin minSize : Int) :
    List MChunk → Bool → Int → List FoldRange
  | [], isFirst, prevEndLine =>
    let startLine : Int := if isFirst then 1 else prevEndLine + 1 + margin
    let endLine : Int := (docLines doc : Int)
    let lineCount := endLine - startLine + 1
    if lineCount ≥ minSize ∧ 1 ≤ startLine ∧ endLine ≤ (docLines doc : Int) ∧
        startLine ≤ endLine then
      [⟨lineFromPos doc startLine.toNat, lineToPos doc endLine.toNat, lineCount⟩]
    else []
  | c :: rest, isFirst, prevEndLine =>
    let startLine : Int := if isFirst then 1 else prevEndLine + 1 + margin
    let endLine : Int := (lineAtNum doc (chunkFrom side c) : Int) - 1 - margin
    let lineCount := endLine - startLine + 1
    let here :=
      if lineCount ≥ minSize ∧ 1 ≤ startLine ∧ endLine ≤ (docLines doc : Int) ∧
          startLine ≤ endLine then
        [⟨lineFromPos doc startLine.toNat, lineToPos doc endLine.toNat, lineCount⟩]
      else []
    here ++ curLoop doc side margin minSize rest false
      ((lineAtNum doc (min (docLength doc) (chunkTo side c)) : Int))

/-- `computeUnchangedRanges(doc, chunks, side, margin, minSize)`. -/
def computeUnchangedRanges (doc : List String) (chunks : List MChunk) (side : ChunkSide)
    (margin minSize : Int) : List FoldRange :=
  curLoop doc side margin minSize chunks true 0

/-- Spec-side loop, following the specification's words: for each gap take
the full unchanged line span, shrink both ends by `margin`, and emit a
range if and only if the resulting line count is at least `minSize` and
start does not exceed end. -/
def specLoop (doc : List String) (side : ChunkSide) (margin minSize : Int) :
    List MChunk → Bool → Int → List FoldRange
  | [], isFirst, prevEndLine =>
    let startLine : Int := if isFirst then 1 else prevEndLine + 1 + margin
    let endLine : Int := (docLines doc : Int)
    let lineCount := endLine - startLine + 1
    if lineCount ≥ minSize ∧ startLine ≤ endLine then
      [⟨lineFromPos doc startLine.toNat, lineToPos doc endLine.toNat, lineCount⟩]
    else []
  | c :: rest, isFirst, prevEndLine =>
    let startLine : Int := if isFirst then 1 else prevEndLine + 1 + margin
    let endLine : Int := (lineAtNum doc (chunkFrom side c) : Int) - 1 - margin
    let lineCount := endLine - startLine + 1
    let here :=
      if lineCount ≥ minSize ∧ startLine ≤ endLine then
        [⟨lineFromPos doc startLine.toNat, lineToPos doc endLine.toNat, lineCount⟩]
      else []
    here ++ specLoop doc side margin minSize rest false
      ((lineAtNum doc (min (docLength doc) (chunkTo side c)) : Int))

/-- Per-gap behaviour of `computeUnchangedRanges`, phrased via `specLoop`. -/
def computeUnchangedRangesSpec (doc : List String) (chunks : List MChunk) (side : ChunkSide)
    (margin minSize : Int) : List FoldRange :=
  specLoop doc side margin minSize chunks true 0

theorem curLoop_eq_specLoop (doc : List String) (side : ChunkSide) (margin minSize : Int)
    (hdoc : doc ≠ []) (hm : 0 ≤ margin) (chunks : List MChunk) :
    ∀ (isFirst : Bool) (prevEndLine : Int), (isFirst = false → 1 ≤ prevEndLine) →
      curLoop doc side margin minSize chunks isFirst prevEndLine
        = specLoop doc side margin minSize chunks isFirst prevEndLine := by
  induction chunks with
  | nil =>
    intro isFirst prevEndLine hprev
    rw [curLoop, specLoop]
    have hstart : 1 ≤ (if isFirst then (1 : Int) else prevEndLine + 1 + margin) := by
      cases isFirst with
      | true => simp
      | false =>
        rw [if_neg (by simp)]
        have := hprev rfl
        omega
    refine if_congr ?_ rfl rfl
    constructor
    · rintro ⟨h1, _, _, h4⟩
      exact ⟨h1, h4⟩
    · rintro ⟨h1, h4⟩
      exact ⟨h1, hstart, le_refl _, h4⟩
  | cons c rest ih =>
    intro isFirst prevEndLine hprev
    rw [curLoop, specLoop]
    have hstart : 1 ≤ (if isFirst then (1 : Int) else prevEndLine + 1 + margin) := by
      cases isFirst with
      | true => simp
      | false =>
        rw [if_neg (by simp)]
        have := hprev rfl
        omega
    have hend : (lineAtNum doc (chunkFrom side c) : Int) - 1 - margin
        ≤ (docLines doc : Int) := by
      have h0 := lineAtNum_le doc (chunkFrom side c) hdoc
      have h1 : (lineAtNum doc (chunkFrom side c) : Int) ≤ (docLines doc : Int) := by
        rw [docLines]
        exact_mod_cast h0
      omega
    congr 1
    · refine if_congr ?_ rfl rfl
      constructor
      · rintro ⟨h1, _, _, h4⟩
        exact ⟨h1, h4⟩
      · rintro ⟨h1, h4⟩
        exact ⟨h1, hstart, hend, h4⟩
    · apply ih
      intro _
      have := lineAtNum_pos doc (min (docLength doc) (chunkTo side c))
      exact_mod_cast this

/-- C3: `computeUnchangedRanges` handles each gap (before the first block,
between consecutive blocks, after the last) by taking the full unchanged
line span, shrinking both ends by `margin` lines, and emitting a range if
and only if the resulting line count reaches `minSize` and start does not
exceed end (for a real document, `doc ≠ []`, and a non-negative margin).
In particular a 100-line unchanged gap between two blocks with margin 2 and
minimum size 4 yields exactly one 96-line range, and a 7-line gap (trimmed
to 3 lines) yields none. -/
theorem computeUnchangedRanges_gaps :
    (∀ (doc : List String) (chunks : List MChunk) (side : ChunkSide) (margin minSize : Int),
        doc ≠ [] → 0 ≤ margin →
        computeUnchangedRanges doc chunks side margin minSize
          = computeUnchangedRangesSpec doc chunks side margin minSize) ∧
    computeUnchangedRanges (List.replicate 102 "a")
        [⟨0, 1, 0, 1⟩, ⟨202, 203, 202, 203⟩] .a 2 4 = [⟨6, 197, 96⟩] ∧
    computeUnchangedRanges (List.replicate 9 "a")
        [⟨0, 1, 0, 1⟩, ⟨16, 17, 16, 17⟩] .a 2 4 = [] := by
  refine ⟨?_, ?_, ?_⟩
  · intro doc chunks side margin minSize hdoc hm
    exact curLoop_eq_specLoop doc side margin minSize hdoc hm chunks true 0 (by simp)
  · set_option maxRecDepth 4000 in decide
  · decide

/-- Witness for `computeUnchangedRanges_gaps`: the per-gap description agrees
with the loop on the concrete two-block document. -/
theorem computeUnchangedRanges_gaps_witness :
    ((List.replicate 9 "a" : List String) ≠ [] ∧ (0 : Int) ≤ 2) ∧
    computeUnchangedRanges (List.replicate 9 "a") [⟨0, 1, 0, 1⟩, ⟨16, 17, 16, 17⟩] .a 2 4
      = computeUnchangedRangesSpec (List.replicate 9 "a")
          [⟨0, 1, 0, 1⟩, ⟨16, 17, 16, 17⟩] .a 2 4 :=
  ⟨⟨by decide, by decide⟩,
    computeUnchangedRanges_gaps.1 (List.replicate 9 "a")
      [⟨0, 1, 0, 1⟩, ⟨16, 17, 16, 17⟩] .a 2 4 (by decide) (by decide)⟩

/-! ## Patience diff engine (src part_001)

Indices are `Int` because the algorithm works with inclusive bounds that
become `-1` on empty inputs, and `-1` is the sentinel for "no index" in
`DiffEntry`.  Array access `arr[i]!` is `getI`.  JS `Map`s that are only
iterated in insertion order are embedded as lists in insertion order.

The two trimming `while` loops of `addSubMatch` are embedded as the
fuel-counted functions `trimFront`/`trimBack` (the fuel is the size of the
`a`-span, an upper bound on the number of iterations, so the loop always
stops on its own condition), and the mutual recursion
`addSubMatch`/`recurseLCS` as the single fuel-counted dispatcher `pdRun`;
`patienceDiff` passes fuel `2*(|a| + |b|) + 5`, which the round-trip proof
shows is never exhausted. -/

/-- `arr[i]!` for an `Int` index (out-of-range access yields `""`). -/
def getI (l : List String) (i : Int) : String :=
  if 0 ≤ i then l.getD i.toNat "" else ""

/-- One output entry: the line plus its index in `a` and in `b` (−1 when the
line is absent from that side). -/
structure DiffEntry where
  line : String
  aIndex : Int
  bIndex : Int
deriving DecidableEq, Repr

/-- The result record of `patienceDiff`. -/
structure DiffResult where
  lines : List DiffEntry
deriving DecidableEq, Repr

/-- `addToResult(aIndex, bIndex)`: build the entry pushed to the result. -/
def mkEntry (a b : List String) (aIndex bIndex : Int) : DiffEntry :=
  ⟨if 0 ≤ aIndex then getI a aIndex else getI b bIndex, aIndex, bIndex⟩

/-- One step of `findUnique`'s counting loop: bump the count of `s` (moving
its stored index to the latest occurrence `i`), or append a fresh entry. -/
def bump : List (String × Nat × Int) → String → Int → List (String × Nat × Int)
  | [], s, i => [(s, 1, i)]
  | (t, c, j) :: rest, s, i =>
    if t = s then (t, c + 1, i) :: rest else (t, c, j) :: bump rest s i

/-- `findUnique(arr, lo, hi)`: the lines occurring exactly once in
`arr[lo..hi]`, with their index, in first-occurrence order. -/
def findUnique (arr : List String) (lo hi : Int) : List (String × Int) :=
  (((intRange lo hi).foldl (fun m i => bump m (getI arr i) i) []).filter
      (fun e => e.2.1 = 1)).map (fun e => (e.1, e.2.2))

/-- `uniqueCommon(aArr, aLo, aHi, bArr, bLo, bHi)`: lines unique in both
spans, with both indices, in `a`-side first-occurrence order. -/
def uniqueCommon (aArr : List String) (aLo aHi : Int) (bArr : List String)
    (bLo bHi : Int) : List (String × Int × Int) :=
  let ma := findUnique aArr aLo aHi
  let mb := findUnique bArr bLo bHi
  ma.filterMap (fun e => (lookupA mb e.1).map (fun bIdx => (e.1, e.2, bIdx)))

/-- A patience-sort card: the pair of indices plus the materialised chain of
`prev` pointers (most recent first), embedding the source's mutable
`prev` field. -/
structure Chain where
  indexA : Int
  indexB : Int
  prev : List (Int × Int)
deriving DecidableEq, Repr

/-- `pile[pile.length - 1]` with a dummy default (piles are never empty). -/
def lastD (pile : List Chain) : Chain :=
  pile.getLastD ⟨-1, -1, []⟩

/-- The `while (ja[i] && ja[i].last.indexB < val.indexB) i++` scan: index of
the first pile whose last card's `indexB` is not below `bIdx` (or the pile
count, creating a new pile). -/
def placeIdx (piles : List (List Chain)) (bIdx : Int) : Nat :=
  match piles with
  | [] => 0
  | pile :: rest => if (lastD pile).indexB < bIdx then placeIdx rest bIdx + 1 else 0

/-- Insert one `uniqueCommon` value into the piles, recording the previous
pile's top card as its `prev` chain. -/
def insertVal (ja : List (List Chain)) (v : String × Int × Int) : List (List Chain) :=
  let i := placeIdx ja v.2.2
  let prevChain : List (Int × Int) :=
    if i = 0 then []
    else
      let c := lastD (ja.getD (i - 1) [])
      (c.indexA, c.indexB) :: c.prev
  let card : Chain := ⟨v.2.1, v.2.2, prevChain⟩
  if i < ja.length then ja.set i (ja.getD i [] ++ [card]) else ja ++ [[card]]

/-- `longestCommonSubsequence`: patience piles, then walk the `prev` chain
from the top card of the last pile and reverse. -/
def longestCommonSubsequence (abMap : List (String × Int × Int)) : List (Int × Int) :=
  let ja := abMap.foldl insertVal []
  match ja.getLast? with
  | none => []
  | some pile =>
    let c := lastD pile
    (((c.indexA, c.indexB)) :: c.prev).reverse

/-- The `while (aLo <= aHi && bLo <= bHi && aLines[aLo] === bLines[bLo])`
prefix-trimming loop; returns the final `(aLo, bLo)`. -/
def trimFront (a b : List String) : Nat → Int → Int → Int → Int → Int × Int
  | 0, aLo, _, bLo, _ => (aLo, bLo)
  | n + 1, aLo, aHi, bLo, bHi =>
    if aLo ≤ aHi ∧ bLo ≤ bHi ∧ getI a aLo = getI b bLo then
      trimFront a b n (aLo + 1) aHi (bLo + 1) bHi
    else (aLo, bLo)

/-- The `while (aLo <= aHi && bLo <= bHi && aLines[aHi] === bLines[bHi])`
suffix-trimming loop; returns the final `(aHi, bHi)`. -/
def trimBack (a b : List String) : Nat → Int → Int → Int → Int → Int × Int
  | 0, _, aHi, _, bHi => (aHi, bHi)
  | n + 1, aLo, aHi, bLo, bHi =>
    if aLo ≤ aHi ∧ bLo ≤ bHi ∧ getI a aHi = getI b bHi then
      trimBack a b n aLo (aHi - 1) bLo (bHi - 1)
    else (aHi, bHi)

/-- Defunctionalised call type for the mutual pair
`addSubMatch`/`recurseLCS`. -/
inductive PCall where
  | sub (aLo aHi bLo bHi : Int)
  | lcs (aLo aHi bLo bHi : Int) (uc : Option (List (String × Int × Int)))
deriving DecidableEq, Repr

/-- The mutual recursion of `addSubMatch` (`.sub`) and `recurseLCS`
(`.lcs`), with a fuel counter standing in for the termination measure.
`.sub`: trim common prefix/suffix (emitting the matches), then either the
no-anchor base case (deletions then insertions) or a `recurseLCS` call on
the trimmed span; `.lcs`: compute the anchor sequence and recurse on the
segment before the first anchor, between consecutive anchors, and after
the last anchor. -/
def pdRun (a b : List String) : Nat → PCall → List DiffEntry
  | 0, _ => []
  | n + 1, .sub aLo aHi bLo bHi =>
    let fr := trimFront a b (aHi + 1 - aLo).toNat aLo aHi bLo bHi
    let aLo2 := fr.1
    let bLo2 := fr.2
    let bk := trimBack a b (aHi + 1 - aLo2).toNat aLo2 aHi bLo2 bHi
    let aHi2 := bk.1
    let bHi2 := bk.2
    let pre := (intRange aLo (aLo2 - 1)).map (fun i => mkEntry a b i (bLo + (i - aLo)))
    let post := (intRange (aHi2 + 1) aHi).map (fun i => mkEntry a b i (bHi2 + (i - aHi2)))
    let uc := uniqueCommon a aLo2 aHi2 b bLo2 bHi2
    let mid :=
      if uc.isEmpty then
        (intRange aLo2 aHi2).map (fun i => mkEntry a b i (-1)) ++
          (intRange bLo2 bHi2).map (fun j => mkEntry a b (-1) j)
      else pdRun a b n (.lcs aLo2 aHi2 bLo2 bHi2 (some uc))
    pre ++ mid ++ post
  | n + 1, .lcs aLo aHi bLo bHi ucOpt =>
    let x := longestCommonSubsequence (ucOpt.getD (uniqueCommon a aLo aHi b bLo bHi))
    match x with
    | [] => pdRun a b n (.sub aLo aHi bLo bHi)
    | x0 :: xrest =>
      let first :=
        if aLo < x0.1 ∨ bLo < x0.2 then
          pdRun a b n (.sub aLo (x0.1 - 1) bLo (x0.2 - 1))
        else []
      let mids :=
        (((x0 :: xrest).zip xrest).map
          (fun pq => pdRun a b n (.sub pq.1.1 (pq.2.1 - 1) pq.1.2 (pq.2.2 - 1)))).flatten
      let xl := (x0 :: xrest).getLast (by simp)
      let last :=
        if xl.1 ≤ aHi ∨ xl.2 ≤ bHi then pdRun a b n (.sub xl.1 aHi xl.2 bHi)
        else []
      first ++ mids ++ last

/-- `patienceDiff(aLines, bLines)`.  The top-level call is
`recurseLCS(0, aLines.length - 1, 0, bLines.length - 1)`; the fuel bound is
proved sufficient in the round-trip theorem. -/
def patienceDiff (aLines bLines : List String) : DiffResult :=
  ⟨pdRun aLines bLines (2 * (aLines.length + bLines.length) + 5)
    (.lcs 0 ((aLines.length : Int) - 1) 0 ((bLines.length : Int) - 1) none)⟩

/-- C4: on `(["x","y","x"], ["x","y"])` the unique-common anchor set
excludes "x" (repeated in A even though unique in B), so "x" is never an
anchor; in the result "y" is a Match entry and exactly one "x" is a
DeleteOnly entry. -/
theorem patienceDiff_anchor_uniqueness :
    (∀ e ∈ uniqueCommon ["x", "y", "x"] 0 2 ["x", "y"] 0 1, e.1 ≠ "x") ∧
    (patienceDiff ["x", "y", "x"] ["x", "y"]).lines
      = [⟨"x", 0, 0⟩, ⟨"y", 1, 1⟩, ⟨"x", 2, -1⟩] ∧
    (⟨"y", 1, 1⟩ : DiffEntry) ∈ (patienceDiff ["x", "y", "x"] ["x", "y"]).lines ∧
    ((patienceDiff ["x", "y", "x"] ["x", "y"]).lines.filter
        (fun e => e.line = "x" ∧ 0 ≤ e.aIndex ∧ e.bIndex < 0)).length = 1 := by
  refine ⟨by decide, by decide, by decide, by decide⟩

/-! ### Properties of the trimming loops -/

theorem trimFront_spec (a b : List String) (n : Nat) :
    ∀ (aLo aHi bLo bHi : Int),
      aLo ≤ (trimFront a b n aLo aHi bLo bHi).1 ∧
      (trimFront a b n aLo aHi bLo bHi).1 - aLo
        = (trimFront a b n aLo aHi bLo bHi).2 - bLo ∧
      (∀ k : Int, 0 ≤ k → k < (trimFront a b n aLo aHi bLo bHi).1 - aLo →
        getI a (aLo + k) = getI b (bLo + k)) ∧
      (trimFront a b n aLo aHi bLo bHi).1 ≤ max aLo (aHi + 1) ∧
      (trimFront a b n aLo aHi bLo bHi).2 ≤ max bLo (bHi + 1) := by
  induction n with
  | zero =>
    intro aLo aHi bLo bHi
    refine ⟨le_refl _, by simp [trimFront], ?_, ?_, ?_⟩
    · intro k hk0 hk1
      simp [trimFront] at hk1
      omega
    · simp [trimFront]
    · simp [trimFront]
  | succ m ih =>
    intro aLo aHi bLo bHi
    rw [trimFront]
    split
    · rename_i hcond
      obtain ⟨h1, h2, h3⟩ := hcond
      obtain ⟨ih1, ih2, ih3, ih4, ih5⟩ := ih (aLo + 1) aHi (bLo + 1) bHi
      refine ⟨by omega, by omega, ?_, by omega, by omega⟩
      intro k hk0 hk1
      by_cases hk : k = 0
      · subst hk
        simpa using h3
      · have := ih3 (k - 1) (by omega) (by omega)
        have heq1 : aLo + 1 + (k - 1) = aLo + k := by omega
        have heq2 : bLo + 1 + (k - 1) = bLo + k := by omega
        rwa [heq1, heq2] at this
    · refine ⟨le_refl _, by omega, ?_, le_max_left _ _, le_max_left _ _⟩
      intro k hk0 hk1
      omega

theorem trimFront_progress (a b : List String) (n : Nat) (aLo aHi bLo bHi : Int)
    (hn : 1 ≤ n) (h1 : aLo ≤ aHi) (h2 : bLo ≤ bHi) (h3 : getI a aLo = getI b bLo) :
    aLo + 1 ≤ (trimFront a b n aLo aHi bLo bHi).1 := by
  obtain ⟨m, rfl⟩ : ∃ m, n = m + 1 := ⟨n - 1, by omega⟩
  rw [trimFront]
  rw [if_pos ⟨h1, h2, h3⟩]
  exact (trimFront_spec a b m (aLo + 1) aHi (bLo + 1) bHi).1

theorem trimBack_spec (a b : List String) (n : Nat) :
    ∀ (aLo aHi bLo bHi : Int),
      (trimBack a b n aLo aHi bLo bHi).1 ≤ aHi ∧
      aHi - (trimBack a b n aLo aHi bLo bHi).1
        = bHi - (trimBack a b n aLo aHi bLo bHi).2 ∧
      (∀ k : Int, 0 ≤ k → k < aHi - (trimBack a b n aLo aHi bLo bHi).1 →
        getI a (aHi - k) = getI b (bHi - k)) ∧
      min (aLo - 1) aHi ≤ (trimBack a b n aLo aHi bLo bHi).1 ∧
      min (bLo - 1) bHi ≤ (trimBack a b n aLo aHi bLo bHi).2 := by
  induction n with
  | zero =>
    intro aLo aHi bLo bHi
    refine ⟨le_refl _, by simp [trimBack], ?_, ?_, ?_⟩
    · intro k hk0 hk1
      simp [trimBack] at hk1
      omega
    · simp [trimBack]
    · simp [trimBack]
  | succ m ih =>
    intro aLo aHi bLo bHi
    rw [trimBack]
    split
    · rename_i hcond
      obtain ⟨h1, h2, h3⟩ := hcond
      obtain ⟨ih1, ih2, ih3, ih4, ih5⟩ := ih aLo (aHi - 1) bLo (bHi - 1)
      refine ⟨by omega, by omega, ?_, by omega, by omega⟩
      intro k hk0 hk1
      by_cases hk : k = 0
      · subst hk
        simpa using h3
      · have := ih3 (k - 1) (by omega) (by omega)
        have heq1 : aHi - 1 - (k - 1) = aHi - k := by omega
        have heq2 : bHi - 1 - (k - 1) = bHi - k := by omega
        rwa [heq1, heq2] at this
    · refine ⟨le_refl _, by omega, ?_, min_le_right _ _, min_le_right _ _⟩
      intro k hk0 hk1
      omega

/-! ### Properties of `findUnique` and `uniqueCommon` -/

theorem bump_keys (m : List (String × Nat × Int)) (s : String) (i : Int) :
    (bump m s i).map (fun e => e.1)
      = if s ∈ m.map (fun e => e.1) then m.map (fun e => e.1)
        else m.map (fun e => e.1) ++ [s] := by
  induction m with
  | nil => simp [bump]
  | cons e rest ih =>
    obtain ⟨t, c, j⟩ := e
    by_cases h : t = s
    · simp [bump, h]
    · simp only [bump, h, if_neg, not_false_iff, List.map_cons, ih]
      by_cases h2 : s ∈ rest.map (fun e => e.1)
      · simp [h2, Ne.symm h]
      · simp [h2, Ne.symm h]

theorem bump_entries (m : List (String × Nat × Int)) (s : String) (i : Int) (lo : Int)
    (hm : ∀ e ∈ m, 1 ≤ e.2.1 ∧ lo ≤ e.2.2 ∧ e.2.2 < i ∧ getI arr e.2.2 = e.1)
    (hlo : lo ≤ i) (hs : getI arr i = s) :
    ∀ e ∈ bump m s i, 1 ≤ e.2.1 ∧ lo ≤ e.2.2 ∧ e.2.2 < i + 1 ∧ getI arr e.2.2 = e.1 := by
  induction m with
  | nil =>
    intro e he
    simp [bump] at he
    subst he
    dsimp only
    exact ⟨le_refl 1, hlo, by omega, hs⟩
  | cons f rest ih =>
    obtain ⟨t, c, j⟩ := f
    intro e he
    by_cases h : t = s
    · simp only [bump, h, if_pos] at he
      rcases List.mem_cons.1 he with he | he
      · subst he
        have h5 := hm (t, c, j) (by simp)
        dsimp only at h5 ⊢
        exact ⟨by omega, hlo, by omega, hs⟩
      · have h5 := hm e (by simp [he])
        exact ⟨h5.1, h5.2.1, by omega, h5.2.2.2⟩
    · simp only [bump, h, if_neg, not_false_iff] at he
      rcases List.mem_cons.1 he with he | he
      · subst he
        have h5 := hm (t, c, j) (by simp)
        exact ⟨h5.1, h5.2.1, by omega, h5.2.2.2⟩
      · exact ih (fun f hf => hm f (by simp [hf])) e he

theorem bump_filter_sublist (m : List (String × Nat × Int)) (s : String) (i : Int)
    (hpos : ∀ e ∈ m, 1 ≤ e.2.1) :
    List.Sublist ((bump m s i).filter (fun e => e.2.1 = 1))
      (m.filter (fun e => e.2.1 = 1) ++ [(s, 1, i)]) := by
  induction m with
  | nil => simp [bump]
  | cons f rest ih =>
    obtain ⟨t, c, j⟩ := f
    by_cases h : t = s
    · have hc : 1 ≤ c := by
        have := hpos (t, c, j) (by simp)
        simpa using this
      have hc1 : ¬ (c + 1 = 1) := by omega
      simp only [bump, h, if_pos]
      rw [List.filter_cons, List.filter_cons]
      rw [if_neg (by simpa using hc1)]
      by_cases h2 : c = 1
      · rw [if_pos (by simpa using h2)]
        exact (List.sublist_append_left _ _).cons _
      · rw [if_neg (by simpa using h2)]
        exact List.sublist_append_left _ _
    · simp only [bump, h, if_neg, not_false_iff]
      rw [List.filter_cons, List.filter_cons]
      have ihr := ih (fun f hf => hpos f (by simp [hf]))
      by_cases h2 : c = 1
      · rw [if_pos (by simpa using h2), if_pos (by simpa using h2), List.cons_append]
        exact List.cons_sublist_cons.2 ihr
      · rw [if_neg (by simpa using h2), if_neg (by simpa using h2)]
        exact ihr

theorem foldBump_inv (arr : List String) (lo : Int) (n : Nat) :
    ∀ (start : Int) (m : List (String × Nat × Int)),
      lo ≤ start →
      (m.map (fun e => e.1)).Nodup →
      (∀ e ∈ m, 1 ≤ e.2.1 ∧ lo ≤ e.2.2 ∧ e.2.2 < start ∧ getI arr e.2.2 = e.1) →
      List.Pairwise (fun e f => e.2.2 < f.2.2) (m.filter (fun e => e.2.1 = 1)) →
      (((intRangeAux n start).foldl (fun m i => bump m (getI arr i) i) m).map
          (fun e => e.1)).Nodup ∧
      (∀ e ∈ (intRangeAux n start).foldl (fun m i => bump m (getI arr i) i) m,
        1 ≤ e.2.1 ∧ lo ≤ e.2.2 ∧ e.2.2 < start + n ∧ getI arr e.2.2 = e.1) ∧
      List.Pairwise (fun e f => e.2.2 < f.2.2)
        (((intRangeAux n start).foldl (fun m i => bump m (getI arr i) i) m).filter
          (fun e => e.2.1 = 1)) := by
  induction n with
  | zero =>
    intro start m hlo hnd hent hpw
    simp only [intRangeAux, List.foldl_nil]
    refine ⟨hnd, ?_, hpw⟩
    intro e he
    have := hent e he
    exact ⟨this.1, this.2.1, by omega, this.2.2.2⟩
  | succ k ih =>
    intro start m hlo hnd hent hpw
    simp only [intRangeAux, List.foldl_cons]
    have hnd' : ((bump m (getI arr start) start).map (fun e => e.1)).Nodup := by
      rw [bump_keys]
      split
      · exact hnd
      · rename_i hni
        simp only [List.nodup_append, List.nodup_cons, List.nodup_nil]
        exact ⟨hnd, by simp, by simpa using hni⟩
    have hent' := bump_entries m (getI arr start) start lo hent hlo rfl
    have hpw' : List.Pairwise (fun e f => e.2.2 < f.2.2)
        ((bump m (getI arr start) start).filter (fun e => e.2.1 = 1)) := by
      apply List.Pairwise.sublist
        (bump_filter_sublist m (getI arr start) start (fun e he => (hent e he).1))
      rw [List.pairwise_append]
      refine ⟨hpw, by simp, ?_⟩
      intro e he f hf
      have he' := hent e (List.mem_of_mem_filter he)
      have hf2 : f = ((getI arr start), 1, start) := by simpa using hf
      subst hf2
      dsimp only
      omega
    have := ih (start + 1) (bump m (getI arr start) start) (by omega) hnd' hent' hpw'
    refine ⟨this.1, ?_, this.2.2⟩
    intro e he
    have h5 := this.2.1 e he
    refine ⟨h5.1, h5.2.1, by push_cast; omega, h5.2.2.2⟩

theorem findUnique_inv (arr : List String) (lo hi : Int) :
    (((findUnique arr lo hi).map (fun e => e.1)).Nodup) ∧
    (∀ e ∈ findUnique arr lo hi, lo ≤ e.2 ∧ e.2 ≤ hi ∧ getI arr e.2 = e.1) ∧
    List.Pairwise (fun e f => e.2 < f.2) (findUnique arr lo hi) := by
  have h := foldBump_inv arr lo (hi + 1 - lo).toNat lo [] (le_refl _) (by simp)
    (by simp) (by simp)
  rw [findUnique]
  rw [intRange] at *
  set r := (intRangeAux (hi + 1 - lo).toNat lo).foldl (fun m i => bump m (getI arr i) i) []
    with hr
  obtain ⟨hnd, hent, hpw⟩ := h
  refine ⟨?_, ?_, ?_⟩
  · have : ((r.filter (fun e => e.2.1 = 1)).map (fun e => (e.1, e.2.2))).map
        (fun e => e.1) = (r.filter (fun e => e.2.1 = 1)).map (fun e => e.1) := by
      rw [List.map_map]
      rfl
    rw [this]
    exact hnd.sublist ((List.filter_sublist _).map _)
  · intro e he
    simp only [List.mem_map, List.mem_filter] at he
    obtain ⟨f, ⟨hf, _⟩, rfl⟩ := he
    have h5 := hent f hf
    exact ⟨h5.2.1, by omega, h5.2.2.2⟩
  · rw [List.pairwise_map]
    exact hpw.imp (fun h => h) |>.sublist (List.Sublist.refl _) |>.imp (fun h => h)

theorem uniqueCommon_mem {a : List String} {aLo aHi : Int} {b : List String}
    {bLo bHi : Int} {e : String × Int × Int}
    (he : e ∈ uniqueCommon a aLo aHi b bLo bHi) :
    aLo ≤ e.2.1 ∧ e.2.1 ≤ aHi ∧ bLo ≤ e.2.2 ∧ e.2.2 ≤ bHi ∧
    getI a e.2.1 = e.1 ∧ getI b e.2.2 = e.1 := by
  rw [uniqueCommon] at he
  simp only [List.mem_filterMap, Option.map_eq_some'] at he
  obtain ⟨f, hf, bi, hbi, rfl⟩ := he
  have hA := (findUnique_inv a aLo aHi).2.1 f hf
  have hBmem : (f.1, bi) ∈ findUnique b bLo bHi := lookupA_mem hbi
  have hB := (findUnique_inv b bLo bHi).2.1 (f.1, bi) hBmem
  exact ⟨hA.1, hA.2.1, by simpa using hB.1, by simpa using hB.2.1, hA.2.2,
    by simpa using hB.2.2⟩

theorem uniqueCommon_sincrA (a : List String) (aLo aHi : Int) (b : List String)
    (bLo bHi : Int) :
    List.Pairwise (fun e f => e.2.1 < f.2.1) (uniqueCommon a aLo aHi b bLo bHi) := by
  rw [uniqueCommon]
  apply List.Pairwise.filterMap
  · intro p q hpq x hx y hy
    simp only [Option.mem_def, Option.map_eq_some'] at hx hy
    obtain ⟨bi, _, rfl⟩ := hx
    obtain ⟨bj, _, rfl⟩ := hy
    simpa using hpq
  · exact (findUnique_inv a aLo aHi).2.2

/-! ### Properties of `longestCommonSubsequence` -/

/-- The full anchor chain represented by a card: its own pair followed by
the materialised `prev` pointers (most recent first). -/
def chainPairs (c : Chain) : List (Int × Int) :=
  (c.indexA, c.indexB) :: c.prev

/-- A card is well-formed for input `uc`: all its pairs are pairs of `uc`,
and the chain is strictly decreasing in both coordinates. -/
def ChainOk (uc : List (String × Int × Int)) (c : Chain) : Prop :=
  (∀ p ∈ chainPairs c, ∃ e ∈ uc, p = (e.2.1, e.2.2)) ∧
  List.Pairwise (fun p q => q.1 < p.1 ∧ q.2 < p.2) (chainPairs c)

theorem lastD_mem {pile : List Chain} (h : pile ≠ []) : lastD pile ∈ pile := by
  rw [lastD, List.getLastD_eq_getLast?, List.getLast?_eq_getLast pile h]
  simp only [Option.getD_some]
  exact List.getLast_mem h

theorem placeIdx_le (piles : List (List Chain)) (bIdx : Int) :
    placeIdx piles bIdx ≤ piles.length := by
  induction piles with
  | nil => simp [placeIdx]
  | cons pile rest ih =>
    rw [placeIdx]
    split
    · simpa using ih
    · simp

theorem placeIdx_prev (piles : List (List Chain)) (bIdx : Int)
    (h : 1 ≤ placeIdx piles bIdx) :
    (lastD (piles.getD (placeIdx piles bIdx - 1) [])).indexB < bIdx := by
  induction piles with
  | nil => simp [placeIdx] at h
  | cons pile rest ih =>
    rw [placeIdx] at h ⊢
    by_cases hc : (lastD pile).indexB < bIdx
    · rw [if_pos hc] at h ⊢
      by_cases h0 : placeIdx rest bIdx = 0
      · simp [h0, hc]
      · have h1 : 1 ≤ placeIdx rest bIdx := by omega
        have h2 : placeIdx rest bIdx + 1 - 1 = (placeIdx rest bIdx - 1) + 1 := by omega
        rw [h2]
        simpa using ih h1
    · rw [if_neg hc] at h
      omega

theorem insertVal_ne_nil (ja : List (List Chain)) (v : String × Int × Int) :
    insertVal ja v ≠ [] := by
  rw [insertVal]
  split
  · rename_i hlt
    intro hc
    have hlen := congrArg List.length hc
    rw [List.length_set] at hlen
    simp only [List.length_nil] at hlen
    omega
  · simp

theorem foldl_insertVal_ne_nil (l : List (String × Int × Int)) :
    ∀ ja : List (List Chain), ja ≠ [] → l.foldl insertVal ja ≠ [] := by
  induction l with
  | nil => exact fun ja h => h
  | cons v rest ih =>
    intro ja _
    rw [List.foldl_cons]
    exact ih (insertVal ja v) (insertVal_ne_nil ja v)

theorem foldl_insertVal_inv (uc : List (String × Int × Int)) :
    ∀ (l : List (String × Int × Int)) (ja : List (List Chain)),
      (∀ v ∈ l, v ∈ uc) →
      List.Pairwise (fun e f => e.2.1 < f.2.1) l →
      (∀ pile ∈ ja, pile ≠ []) →
      (∀ pile ∈ ja, ∀ c ∈ pile, ChainOk uc c ∧ ∀ v ∈ l, c.indexA < v.2.1) →
      (∀ pile ∈ l.foldl insertVal ja, pile ≠ []) ∧
      (∀ pile ∈ l.foldl insertVal ja, ∀ c ∈ pile, ChainOk uc c) := by
  intro l
  induction l with
  | nil =>
    intro ja _ _ hne hok
    exact ⟨hne, fun pile hp c hc => (hok pile hp c hc).1⟩
  | cons v rest ih =>
    intro ja hsub hpw hne hok
    rw [List.foldl_cons]
    -- facts about the new card
    have hvuc : v ∈ uc := hsub v (by simp)
    have hvrest : ∀ w ∈ rest, v.2.1 < w.2.1 := (List.pairwise_cons.1 hpw).1
    set i := placeIdx ja v.2.2 with hi
    have hcardOk : ∀ prevChain,
        (prevChain = [] ∨
          (∃ c0, (∃ pile0 ∈ ja, c0 ∈ pile0) ∧ prevChain = chainPairs c0 ∧
            c0.indexA < v.2.1 ∧ c0.indexB < v.2.2)) →
        ChainOk uc (⟨v.2.1, v.2.2, prevChain⟩ : Chain) := by
      rintro prevChain (rfl | ⟨c0, ⟨pile0, hp0, hc0⟩, rfl, hA, hB⟩)
      · exact ⟨by rintro p hp; simp [chainPairs] at hp; exact ⟨v, hvuc, by simp [hp]⟩,
          by simp [chainPairs]⟩
      · have hok0 := (hok pile0 hp0 c0 hc0).1
        constructor
        · intro p hp
          rcases List.mem_cons.1 hp with hp | hp
          · exact ⟨v, hvuc, by simp [hp]⟩
          · exact hok0.1 p hp
        · rw [chainPairs]
          rw [List.pairwise_cons]
          refine ⟨?_, hok0.2⟩
          intro q hq
          rcases List.mem_cons.1 hq with hq | hq
          · subst hq
            exact ⟨hA, hB⟩
          · have := (List.pairwise_cons.1 hok0.2).1 q hq
            dsimp only at this ⊢
            exact ⟨this.1.trans hA, this.2.trans hB⟩
    -- the inserted state satisfies the invariant for the remaining input
    have hprev :
        (if i = 0 then ([] : List (Int × Int))
          else
            let c := lastD (ja.getD (i - 1) [])
            (c.indexA, c.indexB) :: c.prev) = [] ∨
        (∃ c0, (∃ pile0 ∈ ja, c0 ∈ pile0) ∧
          (if i = 0 then ([] : List (Int × Int))
            else
              let c := lastD (ja.getD (i - 1) [])
              (c.indexA, c.indexB) :: c.prev) = chainPairs c0 ∧
          c0.indexA < v.2.1 ∧ c0.indexB < v.2.2) := by
      by_cases h0 : i = 0
      · left
        simp [h0]
      · right
        have h1 : 1 ≤ i := by omega
        have h2 : i ≤ ja.length := hi ▸ placeIdx_le ja v.2.2
        have h3 : i - 1 < ja.length := by omega
        have hgd : ja.getD (i - 1) [] = ja[i - 1] := List.getD_eq_getElem ja [] h3
        have hpm : ja[i - 1] ∈ ja := List.getElem_mem h3
        have hpne : ja[i - 1] ≠ [] := hne _ hpm
        refine ⟨lastD (ja.getD (i - 1) []), ⟨ja[i - 1], hpm, ?_⟩, ?_, ?_, ?_⟩
        · rw [hgd]
          exact lastD_mem hpne
        · simp [h0, chainPairs]
        · have hmem2 : lastD (ja.getD (i - 1) []) ∈ ja[i - 1] := by
            rw [hgd]
            exact lastD_mem hpne
          exact (hok ja[i - 1] hpm (lastD (ja.getD (i - 1) [])) hmem2).2 v (by simp)
        · have := placeIdx_prev ja v.2.2 (hi ▸ h1)
          rw [← hi] at this
          exact this
    have hnewOk : ChainOk uc ⟨v.2.1, v.2.2,
        if i = 0 then []
        else
          let c := lastD (ja.getD (i - 1) [])
          (c.indexA, c.indexB) :: c.prev⟩ := hcardOk _ hprev
    -- apply the induction hypothesis
    apply ih (insertVal ja v)
    · exact fun w hw => hsub w (by simp [hw])
    · exact (List.pairwise_cons.1 hpw).2
    · -- piles of the new state are nonempty
      intro pile hpile
      rw [insertVal] at hpile
      split at hpile
      · rcases List.mem_or_eq_of_mem_set hpile with hp | hp
        · exact hne pile hp
        · subst hp
          simp
      · rcases List.mem_append.1 hpile with hp | hp
        · exact hne pile hp
        · intro hc
          rw [List.mem_singleton.1 hp] at hc
          simp at hc
    · -- cards of the new state are ok and below the remaining input
      intro pile hpile c hc
      rw [insertVal] at hpile
      have hold : ∀ pile' ∈ ja, ∀ c' ∈ pile', ChainOk uc c' ∧ ∀ w ∈ rest, c'.indexA < w.2.1 :=
        fun pile' hp' c' hc' =>
          ⟨(hok pile' hp' c' hc').1, fun w hw => (hok pile' hp' c' hc').2 w (by simp [hw])⟩
      have hcnew : ∀ w ∈ rest, (⟨v.2.1, v.2.2,
          if i = 0 then []
          else
            let c := lastD (ja.getD (i - 1) [])
            (c.indexA, c.indexB) :: c.prev⟩ : Chain).indexA < w.2.1 := by
        intro w hw
        exact hvrest w hw
      split at hpile
      · rcases List.mem_or_eq_of_mem_set hpile with hp | hp
        · exact hold pile hp c hc
        · subst hp
          rcases List.mem_append.1 hc with hc | hc
          · have h3 : i < ja.length := by assumption
            have hgd : ja.getD i [] = ja[i] := List.getD_eq_getElem ja [] h3
            exact hold ja[i] (List.getElem_mem h3) c (hgd ▸ hc)
          · rw [List.mem_singleton.1 hc]
            exact ⟨hnewOk, hcnew⟩
      · rcases List.mem_append.1 hpile with hp | hp
        · exact hold pile hp c hc
        · rw [List.mem_singleton.1 hp] at hc
          rw [List.mem_singleton.1 hc]
          exact ⟨hnewOk, hcnew⟩

theorem lcs_facts (uc : List (String × Int × Int))
    (hpw : List.Pairwise (fun e f => e.2.1 < f.2.1) uc) :
    (∀ p ∈ longestCommonSubsequence uc, ∃ e ∈ uc, p = (e.2.1, e.2.2)) ∧
    List.Pairwise (fun p q => p.1 < q.1 ∧ p.2 < q.2) (longestCommonSubsequence uc) ∧
    (uc ≠ [] → longestCommonSubsequence uc ≠ []) := by
  have hinv := foldl_insertVal_inv uc uc [] (fun v hv => hv) hpw (by simp) (by simp)
  rw [longestCommonSubsequence]
  rcases hlast : (uc.foldl insertVal []).getLast? with _ | pile
  · refine ⟨by simp, by simp, ?_⟩
    intro hne
    exfalso
    rcases hne' : uc with _ | ⟨v, rest⟩
    · exact hne hne'
    · have h1 : uc.foldl insertVal [] ≠ [] := by
        rw [hne', List.foldl_cons]
        exact foldl_insertVal_ne_nil rest (insertVal [] v) (insertVal_ne_nil [] v)
      rw [List.getLast?_eq_getLast _ h1] at hlast
      simp at hlast
  · have hpm : pile ∈ uc.foldl insertVal [] := by
      have h2 : uc.foldl insertVal [] ≠ [] := by
        intro hc
        rw [hc] at hlast
        simp at hlast
      rw [List.getLast?_eq_getLast _ h2] at hlast
      have := List.getLast_mem h2
      rwa [Option.some_inj.1 hlast] at this
    have hpne : pile ≠ [] := hinv.1 pile hpm
    have hcard := hinv.2 pile hpm (lastD pile) (lastD_mem hpne)
    refine ⟨?_, ?_, ?_⟩
    · intro p hp
      apply hcard.1 p
      simp only [List.mem_reverse] at hp
      exact hp
    · simp only []
      rw [List.pairwise_reverse]
      exact hcard.2.imp (fun h => ⟨h.1, h.2⟩)
    · intro _
      simp

/-! ### The identity diff (C6) -/

theorem trimFront_diag (a : List String) : ∀ (n : Nat) (l h : Int),
    n = (h + 1 - l).toNat → l ≤ h + 1 →
    trimFront a a n l h l h = (h + 1, h + 1) := by
  intro n
  induction n with
  | zero =>
    intro l h hn hl
    have : l = h + 1 := by omega
    subst this
    simp [trimFront]
  | succ k ih =>
    intro l h hn hl
    have hlh : l ≤ h := by omega
    rw [trimFront, if_pos ⟨hlh, hlh, rfl⟩]
    exact ih (l + 1) h (by omega) (by omega)

theorem uniqueCommon_empty_span (a b : List String) (aLo aHi bLo bHi : Int)
    (h : aHi < aLo) : uniqueCommon a aLo aHi b bLo bHi = [] := by
  have : findUnique a aLo aHi = [] := by
    simp [findUnique, intRange_empty h]
  simp [uniqueCommon, this]

theorem asm_diag (a : List String) (f : Nat) (l h : Int) (hf : 1 ≤ f) (_hl : 0 ≤ l)
    (hlh : l ≤ h + 1) :
    pdRun a a f (.sub l h l h) = (intRange l h).map (fun i => mkEntry a a i i) := by
  obtain ⟨f', rfl⟩ : ∃ f', f = f' + 1 := ⟨f - 1, by omega⟩
  rw [pdRun]
  rw [trimFront_diag a ((h + 1 - l).toNat) l h rfl hlh]
  simp only []
  have hback : (h + 1 - (h + 1)).toNat = 0 := by omega
  rw [hback]
  rw [show trimBack a a 0 (h + 1) h (h + 1) h = (h, h) from rfl]
  simp only []
  have huc : uniqueCommon a (h + 1) h a (h + 1) h = [] :=
    uniqueCommon_empty_span a a (h + 1) h (h + 1) h (by omega)
  rw [huc]
  simp only [List.isEmpty_nil, if_true]
  have h1 : intRange (h + 1) h = [] := intRange_empty (by omega)
  rw [h1]
  simp only [List.map_nil, List.append_nil, List.nil_append]
  have h2 : h + 1 - 1 = h := by omega
  rw [h2]
  apply List.map_congr_left
  intro i hi
  have : l + (i - l) = i := by omega
  rw [this]

theorem uniqueCommon_diag (a : List String) (lo hi : Int) :
    ∀ e ∈ uniqueCommon a lo hi a lo hi, e.2.1 = e.2.2 := by
  intro e he
  rw [uniqueCommon] at he
  simp only [List.mem_filterMap, Option.map_eq_some'] at he
  obtain ⟨f, hf, bi, hbi, rfl⟩ := he
  have hnd := (findUnique_inv a lo hi).1
  have : lookupA (findUnique a lo hi) f.1 = some f.2 := by
    apply mem_lookupA hnd
    exact (show (f.1, f.2) = f from rfl) ▸ hf
  rw [this] at hbi
  have : f.2 = bi := by injection hbi
  simp [this]

theorem pairwise_zip_tail {α : Type} {R : α → α → Prop} :
    ∀ {l : List α}, List.Pairwise R l → ∀ p q, (p, q) ∈ l.zip l.tail → R p q := by
  intro l
  induction l with
  | nil => simp
  | cons a rest ih =>
    intro hpw p q hmem
    cases rest with
    | nil => simp at hmem
    | cons b rs =>
      simp only [List.tail_cons, List.zip_cons_cons] at hmem
      rcases List.mem_cons.1 hmem with h | h
      · obtain ⟨h1, h2⟩ := Prod.mk.injEq .. ▸ h
        subst h1
        subst h2
        exact (List.pairwise_cons.1 hpw).1 q (by simp)
      · exact ih (List.pairwise_cons.1 hpw).2 p q (by simpa using h)

/-- C6: `patienceDiff(A, A)` yields only Match entries: every entry carries
both a non-negative `aIndex` and a non-negative `bIndex`, so there are no
DeleteOnly or InsertOnly entries and hence zero edit blocks. -/
theorem patienceDiff_identity (A : List String) :
    ∀ e ∈ (patienceDiff A A).lines, 0 ≤ e.aIndex ∧ 0 ≤ e.bIndex := by
  intro e he
  rw [patienceDiff] at he
  simp only [] at he
  have hF : 2 * (A.length + A.length) + 5 = (2 * (A.length + A.length) + 4) + 1 := rfl
  rw [hF, pdRun] at he
  simp only [Option.getD_none] at he
  set m : Int := (A.length : Int) with hm
  set uc := uniqueCommon A 0 (m - 1) A 0 (m - 1) with huc
  have hucd : ∀ p ∈ uc, p.2.1 = p.2.2 := uniqueCommon_diag A 0 (m - 1)
  have hucm : ∀ p ∈ uc, 0 ≤ p.2.1 ∧ p.2.1 ≤ m - 1 ∧ 0 ≤ p.2.2 ∧ p.2.2 ≤ m - 1 := by
    intro p hp
    have := uniqueCommon_mem (huc ▸ hp)
    exact ⟨this.1, this.2.1, this.2.2.1, this.2.2.2.1⟩
  have hlcs := lcs_facts uc (uniqueCommon_sincrA A 0 (m - 1) A 0 (m - 1))
  have hdiag_mem : ∀ p ∈ longestCommonSubsequence uc,
      p.1 = p.2 ∧ 0 ≤ p.1 ∧ p.1 ≤ m - 1 := by
    intro p hp
    obtain ⟨f, hf, rfl⟩ := hlcs.1 p hp
    have h1 := hucd f hf
    have h2 := hucm f hf
    exact ⟨h1, h2.1, h2.2.1⟩
  rcases hx : longestCommonSubsequence uc with _ | ⟨x0, xrest⟩
  · rw [hx] at he
    rw [asm_diag A _ 0 (m - 1) (by omega) (le_refl 0) (by omega)] at he
    simp only [List.mem_map] at he
    obtain ⟨i, hi, rfl⟩ := he
    have := mem_intRange.1 hi
    simp [mkEntry]
    omega
  · rw [hx] at he
    simp only [List.mem_append] at he
    have hx0 := hdiag_mem x0 (hx ▸ List.mem_cons_self x0 xrest)
    rcases he with (he | he) | he
    · -- segment before the first anchor
      by_cases hg : 0 < x0.1 ∨ (0 : Int) < x0.2
      · rw [if_pos hg] at he
        have hx02 : x0.2 = x0.1 := hx0.1.symm
        rw [show x0.2 - 1 = x0.1 - 1 by omega] at he
        rw [asm_diag A _ 0 (x0.1 - 1) (by omega) (le_refl 0) (by omega)] at he
        simp only [List.mem_map] at he
        obtain ⟨i, hi, rfl⟩ := he
        have := mem_intRange.1 hi
        simp [mkEntry]
        omega
      · rw [if_neg hg] at he
        simp at he
    · -- segments between consecutive anchors
      simp only [List.mem_flatten, List.mem_map] at he
      obtain ⟨part, ⟨pq, hpq, rfl⟩, he⟩ := he
      have hmem := List.of_mem_zip hpq
      have hp := hdiag_mem pq.1 (by rw [hx]; exact hmem.1)
      have hq := hdiag_mem pq.2 (by rw [hx]; exact List.mem_of_mem_tail hmem.2)
      have hpw' : List.Pairwise (fun p q => p.1 < q.1 ∧ p.2 < q.2) (x0 :: xrest) := by
        rw [← hx]
        exact hlcs.2.1
      have hlt : pq.1.1 < pq.2.1 := (pairwise_zip_tail hpw' pq.1 pq.2 hpq).1
      rw [show pq.1.2 = pq.1.1 from hp.1.symm, show pq.2.2 = pq.2.1 from hq.1.symm] at he
      rw [asm_diag A _ pq.1.1 (pq.2.1 - 1) (by omega) (by omega) (by omega)] at he
      simp only [List.mem_map] at he
      obtain ⟨i, hi, rfl⟩ := he
      have := mem_intRange.1 hi
      simp [mkEntry]
      omega
    · -- segment after the last anchor
      set xl := (x0 :: xrest).getLast (by simp) with hxl
      have hxlm : xl ∈ longestCommonSubsequence uc := by
        rw [hx]
        exact List.getLast_mem _
      have hl := hdiag_mem xl hxlm
      by_cases hg : xl.1 ≤ m - 1 ∨ xl.2 ≤ m - 1
      · rw [if_pos hg] at he
        rw [show xl.2 = xl.1 from hl.1.symm] at he
        rw [asm_diag A _ xl.1 (m - 1) (by omega) (by omega) (by omega)] at he
        simp only [List.mem_map] at he
        obtain ⟨i, hi, rfl⟩ := he
        have := mem_intRange.1 hi
        simp [mkEntry]
        omega
      · rw [if_neg hg] at he
        simp at he

/-- Witness for `patienceDiff_identity` on a concrete two-line document. -/
theorem patienceDiff_identity_witness :
    (⟨"u", 0, 0⟩ : DiffEntry) ∈ (patienceDiff ["u", "v"] ["u", "v"]).lines ∧
    0 ≤ (⟨"u", 0, 0⟩ : DiffEntry).aIndex ∧ 0 ≤ (⟨"u", 0, 0⟩ : DiffEntry).bIndex :=
  ⟨by decide,
    patienceDiff_identity ["u", "v"] (⟨"u", 0, 0⟩ : DiffEntry) (by decide)⟩

/-! ### The round-trip partition property (C1)

`Good a b es aLo aHi bLo bHi` says the entry list `es` partitions exactly
the spans `a[aLo..aHi]` and `b[bLo..bHi]`: its `a`-side indices (of Match
and DeleteOnly entries), read in output order, are exactly `aLo..aHi`, its
`b`-side indices are exactly `bLo..bHi`, and every entry carries the line
text of the positions it refers to. -/

/-- The `a`-side indices of an entry list, in output order. -/
def aIdxs (es : List DiffEntry) : List Int :=
  es.filterMap (fun e => if 0 ≤ e.aIndex then some e.aIndex else none)

/-- The `b`-side indices of an entry list, in output order. -/
def bIdxs (es : List DiffEntry) : List Int :=
  es.filterMap (fun e => if 0 ≤ e.bIndex then some e.bIndex else none)

/-- Every entry's text matches the line it points at, on both sides, and
every entry points at least one side. -/
def GoodLines (a b : List String) (es : List DiffEntry) : Prop :=
  ∀ e ∈ es, (0 ≤ e.aIndex → e.line = getI a e.aIndex) ∧
    (0 ≤ e.bIndex → e.line = getI b e.bIndex) ∧ (0 ≤ e.aIndex ∨ 0 ≤ e.bIndex)

/-- `es` is an exact ordered partition of `a[aLo..aHi]` and `b[bLo..bHi]`. -/
def Good (a b : List String) (es : List DiffEntry) (aLo aHi bLo bHi : Int) : Prop :=
  aIdxs es = intRange aLo aHi ∧ bIdxs es = intRange bLo bHi ∧ GoodLines a b es

theorem aIdxs_append (es1 es2 : List DiffEntry) :
    aIdxs (es1 ++ es2) = aIdxs es1 ++ aIdxs es2 := List.filterMap_append _ _ _

theorem bIdxs_append (es1 es2 : List DiffEntry) :
    bIdxs (es1 ++ es2) = bIdxs es1 ++ bIdxs es2 := List.filterMap_append _ _ _

theorem good_append {a b : List String} {es1 es2 : List DiffEntry}
    {aLo aM aHi bLo bM bHi : Int}
    (h1 : Good a b es1 aLo (aM - 1) bLo (bM - 1)) (h2 : Good a b es2 aM aHi bM bHi)
    (ha1 : aLo ≤ aM) (ha2 : aM ≤ aHi + 1) (hb1 : bLo ≤ bM) (hb2 : bM ≤ bHi + 1) :
    Good a b (es1 ++ es2) aLo aHi bLo bHi := by
  refine ⟨?_, ?_, ?_⟩
  · rw [aIdxs_append, h1.1, h2.1, intRange_append ha1 ha2]
  · rw [bIdxs_append, h1.2.1, h2.2.1, intRange_append hb1 hb2]
  · intro e he
    rcases List.mem_append.1 he with he | he
    · exact h1.2.2 e he
    · exact h2.2.2 e he

theorem good_nil (a b : List String) (aLo bLo : Int) :
    Good a b [] aLo (aLo - 1) bLo (bLo - 1) := by
  refine ⟨?_, ?_, ?_⟩
  · rw [aIdxs]
    simp [intRange_empty (show aLo - 1 < aLo by omega)]
  · rw [bIdxs]
    simp [intRange_empty (show bLo - 1 < bLo by omega)]
  · intro e he
    simp at he

theorem filterMap_pos_id (l : List Int) (h : ∀ i ∈ l, 0 ≤ i) :
    l.filterMap (fun i => if 0 ≤ i then some i else none) = l := by
  induction l with
  | nil => rfl
  | cons x rest ih =>
    rw [List.filterMap_cons]
    rw [if_pos (h x (by simp))]
    rw [ih (fun i hi => h i (by simp [hi]))]

theorem filterMap_none (l : List Int) (g : Int → Option Int) (h : ∀ i ∈ l, g i = none) :
    l.filterMap g = [] := by
  induction l with
  | nil => rfl
  | cons x rest ih =>
    rw [List.filterMap_cons, h x (by simp), ih (fun i hi => h i (by simp [hi]))]

theorem mkEntry_aIndex (a b : List String) (i j : Int) : (mkEntry a b i j).aIndex = i := rfl

theorem mkEntry_bIndex (a b : List String) (i j : Int) : (mkEntry a b i j).bIndex = j := rfl

/-- A run of Match entries pairing `a[lo..hi]` with `b[lo+d..hi+d]`. -/
theorem good_matchMap (a b : List String) (lo hi d : Int) (hlo : 0 ≤ lo)
    (hbd : 0 ≤ lo + d)
    (heq : ∀ i : Int, lo ≤ i → i ≤ hi → getI a i = getI b (i + d)) :
    Good a b ((intRange lo hi).map (fun i => mkEntry a b i (i + d)))
      lo hi (lo + d) (hi + d) := by
  refine ⟨?_, ?_, ?_⟩
  · rw [aIdxs, List.filterMap_map]
    have : ∀ i ∈ intRange lo hi,
        ((fun e => if 0 ≤ e.aIndex then some e.aIndex else none) ∘
          (fun i => mkEntry a b i (i + d))) i = (fun i => if 0 ≤ i then some i else none) i := by
      intro i _
      rfl
    rw [List.filterMap_congr this]
    apply filterMap_pos_id
    intro i hi
    have := mem_intRange.1 hi
    omega
  · rw [bIdxs, List.filterMap_map]
    have h1 : ∀ i ∈ intRange lo hi,
        ((fun e => if 0 ≤ e.bIndex then some e.bIndex else none) ∘
          (fun i => mkEntry a b i (i + d))) i
          = (fun i => some (i + d)) i := by
      intro i hi
      have := mem_intRange.1 hi
      have h2 : (0 : Int) ≤ i + d := by omega
      simp only [Function.comp_apply, mkEntry_bIndex, if_pos h2]
    rw [List.filterMap_congr h1]
    have h2 : List.filterMap (fun i : Int => some (i + d)) (intRange lo hi)
        = (intRange lo hi).map (fun i => i + d) := by
      rw [← List.filterMap_eq_map]
      rfl
    rw [h2, intRange_map_add]
  · intro e he
    simp only [List.mem_map] at he
    obtain ⟨i, hi, rfl⟩ := he
    have hm := mem_intRange.1 hi
    have h0 : (0 : Int) ≤ i := by omega
    refine ⟨?_, ?_, ?_⟩
    · intro _
      rw [mkEntry_aIndex, mkEntry, if_pos h0]
    · intro _
      rw [mkEntry_bIndex, mkEntry, if_pos h0]
      exact heq i hm.1 hm.2
    · left
      rw [mkEntry_aIndex]
      exact h0

/-- The no-anchor base case: all remaining `a`-span lines as DeleteOnly (in
order) followed by all remaining `b`-span lines as InsertOnly (in order). -/
theorem good_base (a b : List String) (aLo aHi bLo bHi : Int) (h0a : 0 ≤ aLo)
    (h0b : 0 ≤ bLo) :
    Good a b ((intRange aLo aHi).map (fun i => mkEntry a b i (-1)) ++
        (intRange bLo bHi).map (fun j => mkEntry a b (-1) j)) aLo aHi bLo bHi := by
  refine ⟨?_, ?_, ?_⟩
  · rw [aIdxs, List.filterMap_append, List.filterMap_map, List.filterMap_map]
    have h1 : ∀ i ∈ intRange aLo aHi,
        ((fun e => if 0 ≤ e.aIndex then some e.aIndex else none) ∘
          (fun i => mkEntry a b i (-1))) i = (fun i => if 0 ≤ i then some i else none) i :=
      fun i _ => rfl
    rw [List.filterMap_congr h1]
    have h2 : ∀ j ∈ intRange bLo bHi,
        ((fun e => if 0 ≤ e.aIndex then some e.aIndex else none) ∘
          (fun j => mkEntry a b (-1) j)) j = (fun _ => (none : Option Int)) j := by
      intro j _
      simp only [Function.comp_apply, mkEntry_aIndex]
      rw [if_neg (by omega)]
    rw [List.filterMap_congr h2]
    rw [filterMap_pos_id _ (fun i hi => by have := mem_intRange.1 hi; omega)]
    rw [filterMap_none _ _ (fun i _ => rfl)]
    simp
  · rw [bIdxs, List.filterMap_append, List.filterMap_map, List.filterMap_map]
    have h1 : ∀ i ∈ intRange aLo aHi,
        ((fun e => if 0 ≤ e.bIndex then some e.bIndex else none) ∘
          (fun i => mkEntry a b i (-1))) i = (fun _ => (none : Option Int)) i := by
      intro i _
      simp only [Function.comp_apply, mkEntry_bIndex]
      rw [if_neg (by omega)]
    rw [List.filterMap_congr h1]
    have h2 : ∀ j ∈ intRange bLo bHi,
        ((fun e => if 0 ≤ e.bIndex then some e.bIndex else none) ∘
          (fun j => mkEntry a b (-1) j)) j = (fun j => if 0 ≤ j then some j else none) j :=
      fun j _ => rfl
    rw [List.filterMap_congr h2]
    rw [filterMap_none _ _ (fun i _ => rfl)]
    rw [filterMap_pos_id _ (fun j hj => by have := mem_intRange.1 hj; omega)]
    simp
  · intro e he
    rcases List.mem_append.1 he with he | he
    · simp only [List.mem_map] at he
      obtain ⟨i, hi, rfl⟩ := he
      have hm := mem_intRange.1 hi
      refine ⟨?_, ?_, ?_⟩
      · intro _
        rw [mkEntry_aIndex, mkEntry, if_pos (by omega : (0 : Int) ≤ i)]
      · intro hc
        rw [mkEntry_bIndex] at hc
        omega
      · left
        rw [mkEntry_aIndex]
        omega
    · simp only [List.mem_map] at he
      obtain ⟨j, hj, rfl⟩ := he
      have hm := mem_intRange.1 hj
      refine ⟨?_, ?_, ?_⟩
      · intro hc
        rw [mkEntry_aIndex] at hc
        omega
      · intro _
        rw [mkEntry_bIndex, mkEntry, if_neg (by omega : ¬ (0 : Int) ≤ -1)]
      · right
        rw [mkEntry_bIndex]
        omega

/-- Assembly of one `addSubMatch` invocation: prefix matches, a middle part
covering the trimmed span, and suffix matches. -/
theorem sub_assemble (a b : List String) (aLo aHi bLo bHi aLo2 aHi2 bLo2 bHi2 : Int)
    (mid : List DiffEntry) (h0a : 0 ≤ aLo) (h0b : 0 ≤ bLo)
    (h1 : aLo ≤ aLo2) (h2 : aLo2 - aLo = bLo2 - bLo) (h3 : aLo2 ≤ aHi + 1)
    (h4 : aHi2 ≤ aHi) (h5 : aHi - aHi2 = bHi - bHi2) (h6 : aLo2 - 1 ≤ aHi2)
    (h6b : bLo2 - 1 ≤ bHi2)
    (hpreEq : ∀ k : Int, 0 ≤ k → k < aLo2 - aLo → getI a (aLo + k) = getI b (bLo + k))
    (hpostEq : ∀ k : Int, 0 ≤ k → k < aHi - aHi2 → getI a (aHi - k) = getI b (bHi - k))
    (hmid : Good a b mid aLo2 aHi2 bLo2 bHi2) :
    Good a b ((intRange aLo (aLo2 - 1)).map (fun i => mkEntry a b i (bLo + (i - aLo)))
        ++ mid ++
        (intRange (aHi2 + 1) aHi).map (fun i => mkEntry a b i (bHi2 + (i - aHi2))))
      aLo aHi bLo bHi := by
  have hpre : Good a b
      ((intRange aLo (aLo2 - 1)).map (fun i => mkEntry a b i (bLo + (i - aLo))))
      aLo (aLo2 - 1) bLo (bLo2 - 1) := by
    have hcg : (intRange aLo (aLo2 - 1)).map (fun i => mkEntry a b i (bLo + (i - aLo)))
        = (intRange aLo (aLo2 - 1)).map (fun i => mkEntry a b i (i + (bLo - aLo))) := by
      apply List.map_congr_left
      intro i _
      have : bLo + (i - aLo) = i + (bLo - aLo) := by omega
      rw [this]
    rw [hcg]
    have hgm := good_matchMap a b aLo (aLo2 - 1) (bLo - aLo) h0a (by omega) ?_
    · have e1 : aLo + (bLo - aLo) = bLo := by omega
      have e2 : aLo2 - 1 + (bLo - aLo) = bLo2 - 1 := by omega
      rwa [e1, e2] at hgm
    · intro i hi1 hi2
      have := hpreEq (i - aLo) (by omega) (by omega)
      have e1 : aLo + (i - aLo) = i := by omega
      have e2 : bLo + (i - aLo) = i + (bLo - aLo) := by omega
      rwa [e1, e2] at this
  have hpost : Good a b
      ((intRange (aHi2 + 1) aHi).map (fun i => mkEntry a b i (bHi2 + (i - aHi2))))
      (aHi2 + 1) aHi (bHi2 + 1) bHi := by
    have hcg : (intRange (aHi2 + 1) aHi).map (fun i => mkEntry a b i (bHi2 + (i - aHi2)))
        = (intRange (aHi2 + 1) aHi).map (fun i => mkEntry a b i (i + (bHi2 - aHi2))) := by
      apply List.map_congr_left
      intro i _
      have : bHi2 + (i - aHi2) = i + (bHi2 - aHi2) := by omega
      rw [this]
    rw [hcg]
    have hgm := good_matchMap a b (aHi2 + 1) aHi (bHi2 - aHi2) (by omega) (by omega) ?_
    · have e1 : aHi2 + 1 + (bHi2 - aHi2) = bHi2 + 1 := by omega
      have e2 : aHi + (bHi2 - aHi2) = bHi := by omega
      rwa [e1, e2] at hgm
    · intro i hi1 hi2
      have := hpostEq (aHi - i) (by omega) (by omega)
      have e1 : aHi - (aHi - i) = i := by omega
      have e2 : bHi - (aHi - i) = i + (bHi2 - aHi2) := by omega
      rwa [e1, e2] at this
  rw [List.append_assoc]
  have hmidpost : Good a b
      (mid ++ (intRange (aHi2 + 1) aHi).map (fun i => mkEntry a b i (bHi2 + (i - aHi2))))
      aLo2 aHi bLo2 bHi := by
    have hmid' : Good a b mid aLo2 (aHi2 + 1 - 1) bLo2 (bHi2 + 1 - 1) := by
      have e1 : aHi2 + 1 - 1 = aHi2 := by omega
      have e2 : bHi2 + 1 - 1 = bHi2 := by omega
      rw [e1, e2]
      exact hmid
    exact good_append hmid' hpost (by omega) (by omega) (by omega) (by omega)
  have hpre' : Good a b
      ((intRange aLo (aLo2 - 1)).map (fun i => mkEntry a b i (bLo + (i - aLo))))
      aLo (aLo2 - 1) bLo (bLo2 - 1) := hpre
  exact good_append hpre' hmidpost h1 (by omega) (by omega) (by omega)

/-- One step of `addSubMatch`, given the behaviour of the `recurseLCS` call
it makes on the trimmed span when unique common lines exist. -/
theorem sub_step (a b : List String) (f' : Nat) (aLo aHi bLo bHi : Int)
    (aLo2 bLo2 aHi2 bHi2 : Int)
    (h0a : 0 ≤ aLo) (h0b : 0 ≤ bLo) (hwa : aLo ≤ aHi + 1) (hwb : bLo ≤ bHi + 1)
    (hfr : trimFront a b (aHi + 1 - aLo).toNat aLo aHi bLo bHi = (aLo2, bLo2))
    (hbk : trimBack a b (aHi + 1 - aLo2).toNat aLo2 aHi bLo2 bHi = (aHi2, bHi2))
    (hrec : uniqueCommon a aLo2 aHi2 b bLo2 bHi2 ≠ [] →
      Good a b (pdRun a b f' (.lcs aLo2 aHi2 bLo2 bHi2
        (some (uniqueCommon a aLo2 aHi2 b bLo2 bHi2)))) aLo2 aHi2 bLo2 bHi2) :
    Good a b (pdRun a b (f' + 1) (.sub aLo aHi bLo bHi)) aLo aHi bLo bHi := by
  have F := trimFront_spec a b (aHi + 1 - aLo).toNat aLo aHi bLo bHi
  rw [hfr] at F
  obtain ⟨F1, F2, F3, F4, F5⟩ := F
  have B := trimBack_spec a b (aHi + 1 - aLo2).toNat aLo2 aHi bLo2 bHi
  rw [hbk] at B
  obtain ⟨B1, B2, B3, B4, B5⟩ := B
  simp only at F1 F2 F3 F4 F5 B1 B2 B3 B4 B5
  have haLo2 : aLo2 ≤ aHi + 1 := by omega
  have hbLo2 : bLo2 ≤ bHi + 1 := by omega
  have h6 : aLo2 - 1 ≤ aHi2 := by omega
  have h6b : bLo2 - 1 ≤ bHi2 := by omega
  simp only [pdRun, hfr, hbk]
  by_cases huc : uniqueCommon a aLo2 aHi2 b bLo2 bHi2 = []
  · rw [huc]
    simp only [List.isEmpty_nil, if_true]
    exact sub_assemble a b aLo aHi bLo bHi aLo2 aHi2 bLo2 bHi2 _ h0a h0b F1 F2 haLo2
      B1 B2 h6 h6b F3 B3
      (good_base a b aLo2 aHi2 bLo2 bHi2 (by omega) (by omega))
  · rw [if_neg (by simpa [List.isEmpty_iff] using huc)]
    exact sub_assemble a b aLo aHi bLo bHi aLo2 aHi2 bLo2 bHi2 _ h0a h0b F1 F2 haLo2
      B1 B2 h6 h6b F3 B3 (hrec huc)

/-- The segments from the first anchor on: between each pair of consecutive
anchors and after the last anchor, given the behaviour of `addSubMatch` on
anchor-led sub-spans. -/
theorem segs_good (a b : List String) (f' : Nat) (aLo aHi bLo bHi : Int) :
    ∀ (xrest : List (Int × Int)) (x0 : Int × Int),
      (∀ p ∈ x0 :: xrest, aLo ≤ p.1 ∧ bLo ≤ p.2 ∧ 0 ≤ p.1 ∧ 0 ≤ p.2 ∧ p.1 ≤ aHi ∧
        p.2 ≤ bHi ∧ getI a p.1 = getI b p.2) →
      List.Pairwise (fun p q => p.1 < q.1 ∧ p.2 < q.2) (x0 :: xrest) →
      (∀ aLo' aHi' bLo' bHi' : Int,
        aLo ≤ aLo' → bLo ≤ bLo' → 0 ≤ aLo' → 0 ≤ bLo' → aLo' ≤ aHi' → bLo' ≤ bHi' →
        aHi' ≤ aHi → bHi' ≤ bHi → getI a aLo' = getI b bLo' →
        Good a b (pdRun a b f' (.sub aLo' aHi' bLo' bHi')) aLo' aHi' bLo' bHi') →
      Good a b
        (((((x0 :: xrest).zip xrest).map
            (fun pq => pdRun a b f' (.sub pq.1.1 (pq.2.1 - 1) pq.1.2 (pq.2.2 - 1)))).flatten)
          ++ (if ((x0 :: xrest).getLast (by simp)).1 ≤ aHi ∨
                ((x0 :: xrest).getLast (by simp)).2 ≤ bHi then
              pdRun a b f' (.sub ((x0 :: xrest).getLast (by simp)).1 aHi
                ((x0 :: xrest).getLast (by simp)).2 bHi)
            else []))
        x0.1 aHi x0.2 bHi := by
  intro xrest
  induction xrest with
  | nil =>
    intro x0 hin hpw hsub
    have hx0 := hin x0 (by simp)
    simp only [List.zip_nil_right, List.map_nil, List.flatten_nil, List.nil_append,
      List.getLast_singleton]
    rw [if_pos (Or.inl hx0.2.2.2.2.1)]
    exact hsub x0.1 aHi x0.2 bHi hx0.1 hx0.2.1 hx0.2.2.1 hx0.2.2.2.1 hx0.2.2.2.2.1
      hx0.2.2.2.2.2.1 (le_refl _) (le_refl _) hx0.2.2.2.2.2.2
  | cons q rs ih =>
    intro x0 hin hpw hsub
    have hlast : ((x0 :: q :: rs).getLast (by simp)) = ((q :: rs).getLast (by simp)) := by
      rw [List.getLast_cons]
    have hzip : (x0 :: q :: rs).zip (q :: rs) = (x0, q) :: (q :: rs).zip rs := by
      rw [List.zip_cons_cons]
    rw [hlast, hzip]
    simp only [List.map_cons, List.flatten_cons]
    rw [List.append_assoc]
    have hx0 := hin x0 (by simp)
    have hq := hin q (by simp)
    have hlt : x0.1 < q.1 ∧ x0.2 < q.2 := (List.pairwise_cons.1 hpw).1 q (by simp)
    have hseg : Good a b (pdRun a b f' (.sub x0.1 (q.1 - 1) x0.2 (q.2 - 1)))
        x0.1 (q.1 - 1) x0.2 (q.2 - 1) := by
      apply hsub <;> try omega
      exact hx0.2.2.2.2.2.2
    have hrest := ih q (fun p hp => hin p (by simp at hp ⊢; tauto))
      (List.pairwise_cons.1 hpw).2 hsub
    exact good_append hseg hrest (by omega) (by omega) (by omega) (by omega)

/-- One step of `recurseLCS` when the anchor sequence is non-empty, given
the behaviour of `addSubMatch` on the segment before the first anchor and
on anchor-led sub-spans. -/
theorem lcs_body_good (a b : List String) (f' : Nat) (aLo aHi bLo bHi : Int)
    (ucOpt : Option (List (String × Int × Int))) (x0 : Int × Int)
    (xrest : List (Int × Int))
    (hgd : ucOpt.getD (uniqueCommon a aLo aHi b bLo bHi)
      = uniqueCommon a aLo aHi b bLo bHi)
    (hx : longestCommonSubsequence (uniqueCommon a aLo aHi b bLo bHi) = x0 :: xrest)
    (h0a : 0 ≤ aLo) (h0b : 0 ≤ bLo)
    (hAfirst : aLo < x0.1 ∨ bLo < x0.2 →
      Good a b (pdRun a b f' (.sub aLo (x0.1 - 1) bLo (x0.2 - 1)))
        aLo (x0.1 - 1) bLo (x0.2 - 1))
    (hAtrim : ∀ aLo' aHi' bLo' bHi' : Int,
      aLo ≤ aLo' → bLo ≤ bLo' → 0 ≤ aLo' → 0 ≤ bLo' → aLo' ≤ aHi' → bLo' ≤ bHi' →
      aHi' ≤ aHi → bHi' ≤ bHi → getI a aLo' = getI b bLo' →
      Good a b (pdRun a b f' (.sub aLo' aHi' bLo' bHi')) aLo' aHi' bLo' bHi') :
    Good a b (pdRun a b (f' + 1) (.lcs aLo aHi bLo bHi ucOpt)) aLo aHi bLo bHi := by
  have hpairs := lcs_facts (uniqueCommon a aLo aHi b bLo bHi)
    (uniqueCommon_sincrA a aLo aHi b bLo bHi)
  have hin : ∀ p ∈ x0 :: xrest, aLo ≤ p.1 ∧ bLo ≤ p.2 ∧ 0 ≤ p.1 ∧ 0 ≤ p.2 ∧
      p.1 ≤ aHi ∧ p.2 ≤ bHi ∧ getI a p.1 = getI b p.2 := by
    intro p hp
    obtain ⟨e, he, rfl⟩ := hpairs.1 p (hx ▸ hp)
    have hm := uniqueCommon_mem he
    exact ⟨hm.1, hm.2.2.1, by omega, by omega, hm.2.1, hm.2.2.2.1,
      by rw [hm.2.2.2.2.1, hm.2.2.2.2.2]⟩
  have hpw : List.Pairwise (fun p q => p.1 < q.1 ∧ p.2 < q.2) (x0 :: xrest) :=
    hx ▸ hpairs.2.1
  have hsegs := segs_good a b f' aLo aHi bLo bHi xrest x0 hin hpw hAtrim
  simp only [pdRun, hgd, hx]
  by_cases hg : aLo < x0.1 ∨ bLo < x0.2
  · rw [if_pos hg]
    rw [List.append_assoc]
    have hfirst := hAfirst hg
    exact good_append hfirst hsegs ((hin x0 (by simp)).1) (by
        have := hin x0 (by simp)
        omega) ((hin x0 (by simp)).2.1) (by
        have := hin x0 (by simp)
        omega)
  · rw [if_neg hg]
    simp only [List.nil_append]
    have hx01 : x0.1 = aLo := by
      have := hin x0 (by simp)
      omega
    have hx02 : x0.2 = bLo := by
      have := hin x0 (by simp)
      omega
    rw [hx01, hx02] at hsegs
    exact hsegs

/-- Fuel measure: total size of the two spans. -/
def spanMeasure (aLo aHi bLo bHi : Int) : Nat :=
  (aHi + 1 - aLo).toNat + (bHi + 1 - bLo).toNat

theorem lcs_nil : longestCommonSubsequence [] = [] := rfl

/-- Main induction: with enough fuel relative to the span measure, every
`addSubMatch`/`recurseLCS` call produces an exact ordered partition of its
spans.  The four conjuncts are, in order: `addSubMatch` on a non-empty span
whose first lines match (one guaranteed trim step, fuel `2n`);
`recurseLCS` with a non-empty precomputed unique-common map (fuel `2n+3`);
`addSubMatch` in general (fuel `2n+4`); and the top-level `recurseLCS`
without a precomputed map (fuel `2n+5`). -/
theorem pd_good (a b : List String) : ∀ n : Nat,
    (∀ (f : Nat) (aLo aHi bLo bHi : Int),
      0 ≤ aLo → 0 ≤ bLo → spanMeasure aLo aHi bLo bHi ≤ n → 2 * n ≤ f →
      aLo ≤ aHi → bLo ≤ bHi → getI a aLo = getI b bLo →
      Good a b (pdRun a b f (.sub aLo aHi bLo bHi)) aLo aHi bLo bHi) ∧
    (∀ (f : Nat) (aLo aHi bLo bHi : Int),
      0 ≤ aLo → 0 ≤ bLo → aLo ≤ aHi + 1 → bLo ≤ bHi + 1 →
      spanMeasure aLo aHi bLo bHi ≤ n → 2 * n + 3 ≤ f →
      uniqueCommon a aLo aHi b bLo bHi ≠ [] →
      Good a b (pdRun a b f (.lcs aLo aHi bLo bHi
        (some (uniqueCommon a aLo aHi b bLo bHi)))) aLo aHi bLo bHi) ∧
    (∀ (f : Nat) (aLo aHi bLo bHi : Int),
      0 ≤ aLo → 0 ≤ bLo → aLo ≤ aHi + 1 → bLo ≤ bHi + 1 →
      spanMeasure aLo aHi bLo bHi ≤ n → 2 * n + 4 ≤ f →
      Good a b (pdRun a b f (.sub aLo aHi bLo bHi)) aLo aHi bLo bHi) ∧
    (∀ (f : Nat) (aLo aHi bLo bHi : Int),
      0 ≤ aLo → 0 ≤ bLo → aLo ≤ aHi + 1 → bLo ≤ bHi + 1 →
      spanMeasure aLo aHi bLo bHi ≤ n → 2 * n + 5 ≤ f →
      Good a b (pdRun a b f (.lcs aLo aHi bLo bHi none)) aLo aHi bLo bHi) := by
  intro n
  induction n using Nat.strong_induction_on with
  | _ n IH =>
  have Atrim : ∀ (f : Nat) (aLo aHi bLo bHi : Int),
      0 ≤ aLo → 0 ≤ bLo → spanMeasure aLo aHi bLo bHi ≤ n → 2 * n ≤ f →
      aLo ≤ aHi → bLo ≤ bHi → getI a aLo = getI b bLo →
      Good a b (pdRun a b f (.sub aLo aHi bLo bHi)) aLo aHi bLo bHi := by
    intro f aLo aHi bLo bHi h0a h0b hμ hf hab hbb heq
    have hμ2 : 2 ≤ spanMeasure aLo aHi bLo bHi := by rw [spanMeasure]; omega
    rw [spanMeasure] at hμ hμ2
    obtain ⟨f', rfl⟩ : ∃ f', f = f' + 1 := ⟨f - 1, by omega⟩
    rcases hfr : trimFront a b (aHi + 1 - aLo).toNat aLo aHi bLo bHi with ⟨aLo2, bLo2⟩
    rcases hbk : trimBack a b (aHi + 1 - aLo2).toNat aLo2 aHi bLo2 bHi with ⟨aHi2, bHi2⟩
    apply sub_step a b f' aLo aHi bLo bHi aLo2 bLo2 aHi2 bHi2 h0a h0b (by omega)
      (by omega) hfr hbk
    intro huc
    have F := trimFront_spec a b (aHi + 1 - aLo).toNat aLo aHi bLo bHi
    rw [hfr] at F
    obtain ⟨F1, F2, F3, F4, F5⟩ := F
    simp only at F1 F2 F4 F5
    have B := trimBack_spec a b (aHi + 1 - aLo2).toNat aLo2 aHi bLo2 bHi
    rw [hbk] at B
    obtain ⟨B1, B2, B3, B4, B5⟩ := B
    simp only at B1 B2 B4 B5
    have hprog : aLo + 1 ≤ aLo2 := by
      have hp := trimFront_progress a b (aHi + 1 - aLo).toNat aLo aHi bLo bHi
        (by omega) hab hbb heq
      rw [hfr] at hp
      simpa using hp
    have R2 := (IH (n - 2) (by omega)).2.1
    exact R2 f' aLo2 aHi2 bLo2 bHi2 (by omega) (by omega) (by omega) (by omega)
      (by rw [spanMeasure]; omega) (by omega) huc
  have Rsome : ∀ (f : Nat) (aLo aHi bLo bHi : Int),
      0 ≤ aLo → 0 ≤ bLo → aLo ≤ aHi + 1 → bLo ≤ bHi + 1 →
      spanMeasure aLo aHi bLo bHi ≤ n → 2 * n + 3 ≤ f →
      uniqueCommon a aLo aHi b bLo bHi ≠ [] →
      Good a b (pdRun a b f (.lcs aLo aHi bLo bHi
        (some (uniqueCommon a aLo aHi b bLo bHi)))) aLo aHi bLo bHi := by
    intro f aLo aHi bLo bHi h0a h0b hwa hwb hμ hf hne
    obtain ⟨f', rfl⟩ : ∃ f', f = f' + 1 := ⟨f - 1, by omega⟩
    have hfacts := lcs_facts (uniqueCommon a aLo aHi b bLo bHi)
      (uniqueCommon_sincrA a aLo aHi b bLo bHi)
    obtain ⟨e, he⟩ := List.exists_mem_of_ne_nil _ hne
    have hm := uniqueCommon_mem he
    have hab : aLo ≤ aHi := by omega
    have hbb : bLo ≤ bHi := by omega
    have hμ2 : 2 ≤ spanMeasure aLo aHi bLo bHi := by rw [spanMeasure]; omega
    rw [spanMeasure] at hμ hμ2
    rcases hx : longestCommonSubsequence (uniqueCommon a aLo aHi b bLo bHi)
      with _ | ⟨x0, xrest⟩
    · exact absurd hx (hfacts.2.2 hne)
    apply lcs_body_good a b f' aLo aHi bLo bHi _ x0 xrest (by simp) hx h0a h0b
    · intro hg
      obtain ⟨e0, he0, hpe⟩ := hfacts.1 x0 (hx ▸ List.mem_cons_self x0 xrest)
      have hm0 := uniqueCommon_mem he0
      have hx0r : aLo ≤ x0.1 ∧ x0.1 ≤ aHi ∧ bLo ≤ x0.2 ∧ x0.2 ≤ bHi := by
        rw [hpe]
        exact ⟨hm0.1, hm0.2.1, hm0.2.2.1, hm0.2.2.2.1⟩
      have As2 := (IH (n - 2) (by omega)).2.2.1
      exact As2 f' aLo (x0.1 - 1) bLo (x0.2 - 1) h0a h0b (by omega) (by omega)
        (by rw [spanMeasure]; omega) (by omega)
    · intro aLo' aHi' bLo' bHi' haLo hbLo h0a' h0b' hne_a' hne_b' hHa hHb heq'
      exact Atrim f' aLo' aHi' bLo' bHi' h0a' h0b' (by rw [spanMeasure]; omega)
        (by omega) hne_a' hne_b' heq'
  have Astrong : ∀ (f : Nat) (aLo aHi bLo bHi : Int),
      0 ≤ aLo → 0 ≤ bLo → aLo ≤ aHi + 1 → bLo ≤ bHi + 1 →
      spanMeasure aLo aHi bLo bHi ≤ n → 2 * n + 4 ≤ f →
      Good a b (pdRun a b f (.sub aLo aHi bLo bHi)) aLo aHi bLo bHi := by
    intro f aLo aHi bLo bHi h0a h0b hwa hwb hμ hf
    rw [spanMeasure] at hμ
    obtain ⟨f', rfl⟩ : ∃ f', f = f' + 1 := ⟨f - 1, by omega⟩
    rcases hfr : trimFront a b (aHi + 1 - aLo).toNat aLo aHi bLo bHi with ⟨aLo2, bLo2⟩
    rcases hbk : trimBack a b (aHi + 1 - aLo2).toNat aLo2 aHi bLo2 bHi with ⟨aHi2, bHi2⟩
    apply sub_step a b f' aLo aHi bLo bHi aLo2 bLo2 aHi2 bHi2 h0a h0b hwa hwb hfr hbk
    intro huc
    have F := trimFront_spec a b (aHi + 1 - aLo).toNat aLo aHi bLo bHi
    rw [hfr] at F
    obtain ⟨F1, F2, F3, F4, F5⟩ := F
    simp only at F1 F2 F4 F5
    have B := trimBack_spec a b (aHi + 1 - aLo2).toNat aLo2 aHi bLo2 bHi
    rw [hbk] at B
    obtain ⟨B1, B2, B3, B4, B5⟩ := B
    simp only at B1 B2 B4 B5
    exact Rsome f' aLo2 aHi2 bLo2 bHi2 (by omega) (by omega) (by omega) (by omega)
      (by rw [spanMeasure]; omega) (by omega) huc
  refine ⟨Atrim, Rsome, Astrong, ?_⟩
  intro f aLo aHi bLo bHi h0a h0b hwa hwb hμ hf
  obtain ⟨f', rfl⟩ : ∃ f', f = f' + 1 := ⟨f - 1, by omega⟩
  rcases hx : longestCommonSubsequence (uniqueCommon a aLo aHi b bLo bHi)
    with _ | ⟨x0, xrest⟩
  · simp only [pdRun, Option.getD_none, hx]
    exact Astrong f' aLo aHi bLo bHi h0a h0b hwa hwb hμ (by omega)
  · have hne : uniqueCommon a aLo aHi b bLo bHi ≠ [] := by
      intro hc
      rw [hc, lcs_nil] at hx
      exact List.noConfusion hx
    have hfacts := lcs_facts (uniqueCommon a aLo aHi b bLo bHi)
      (uniqueCommon_sincrA a aLo aHi b bLo bHi)
    obtain ⟨e, he⟩ := List.exists_mem_of_ne_nil _ hne
    have hm := uniqueCommon_mem he
    have hμ2 : 2 ≤ spanMeasure aLo aHi bLo bHi := by rw [spanMeasure]; omega
    rw [spanMeasure] at hμ hμ2
    apply lcs_body_good a b f' aLo aHi bLo bHi none x0 xrest (by simp) hx h0a h0b
    · intro hg
      obtain ⟨e0, he0, hpe⟩ := hfacts.1 x0 (hx ▸ List.mem_cons_self x0 xrest)
      have hm0 := uniqueCommon_mem he0
      have hx0r : aLo ≤ x0.1 ∧ x0.1 ≤ aHi ∧ bLo ≤ x0.2 ∧ x0.2 ≤ bHi := by
        rw [hpe]
        exact ⟨hm0.1, hm0.2.1, hm0.2.2.1, hm0.2.2.2.1⟩
      have As2 := (IH (n - 2) (by omega)).2.2.1
      exact As2 f' aLo (x0.1 - 1) bLo (x0.2 - 1) h0a h0b (by omega) (by omega)
        (by rw [spanMeasure]; omega) (by omega)
    · intro aLo' aHi' bLo' bHi' haLo hbLo h0a' h0b' hne_a' hne_b' hHa hHb heq'
      exact Atrim f' aLo' aHi' bLo' bHi' h0a' h0b' (by rw [spanMeasure]; omega)
        (by omega) hne_a' hne_b' heq'

theorem intRangeAux_length (n : Nat) : ∀ lo : Int, (intRangeAux n lo).length = n := by
  induction n with
  | zero => intro lo; rfl
  | succ k ih =>
    intro lo
    rw [intRangeAux, List.length_cons, ih]

theorem intRangeAux_getD (n : Nat) : ∀ (lo : Int) (i : Nat), i < n →
    (intRangeAux n lo).getD i 0 = lo + i := by
  induction n with
  | zero => intro lo i h; omega
  | succ k ih =>
    intro lo i h
    match i with
    | 0 => simp [intRangeAux]
    | j + 1 =>
      have hj : j < k := by omega
      have := ih (lo + 1) j hj
      simp only [intRangeAux, List.getD_cons_succ]
      rw [this]
      push_cast
      ring

theorem intRange_map_getI (A : List String) :
    (intRange 0 ((A.length : Int) - 1)).map (getI A) = A := by
  have hn : ((A.length : Int) - 1 + 1 - 0).toNat = A.length := by omega
  rw [intRange, hn]
  apply List.ext_getElem
  · rw [List.length_map, intRangeAux_length]
  · intro i h1 h2
    rw [List.getElem_map]
    have hlen : i < A.length := h2
    have hlen2 : i < (intRangeAux A.length 0).length := by
      rw [intRangeAux_length]
      exact hlen
    rw [← List.getD_eq_getElem (intRangeAux A.length 0) 0 hlen2]
    rw [intRangeAux_getD A.length 0 i hlen]
    rw [getI, if_pos (by omega)]
    have : ((0 : Int) + i).toNat = i := by omega
    rw [this]
    exact List.getD_eq_getElem A "" hlen

theorem filter_map_line_a (a : List String) (es : List DiffEntry)
    (hl : ∀ e ∈ es, 0 ≤ e.aIndex → e.line = getI a e.aIndex) :
    (es.filter (fun e => 0 ≤ e.aIndex)).map (fun e => e.line)
      = (aIdxs es).map (getI a) := by
  induction es with
  | nil => rfl
  | cons e rest ih =>
    rw [List.filter_cons, aIdxs, List.filterMap_cons]
    by_cases h : 0 ≤ e.aIndex
    · rw [if_pos (by simpa using h), if_pos h]
      rw [List.map_cons, List.map_cons]
      rw [hl e (by simp) h]
      rw [ih (fun e' he' => hl e' (by simp [he']))]
      rfl
    · rw [if_neg (by simpa using h), if_neg h]
      rw [ih (fun e' he' => hl e' (by simp [he']))]
      rfl

theorem filter_map_line_b (b : List String) (es : List DiffEntry)
    (hl : ∀ e ∈ es, 0 ≤ e.bIndex → e.line = getI b e.bIndex) :
    (es.filter (fun e => 0 ≤ e.bIndex)).map (fun e => e.line)
      = (bIdxs es).map (getI b) := by
  induction es with
  | nil => rfl
  | cons e rest ih =>
    rw [List.filter_cons, bIdxs, List.filterMap_cons]
    by_cases h : 0 ≤ e.bIndex
    · rw [if_pos (by simpa using h), if_pos h]
      rw [List.map_cons, List.map_cons]
      rw [hl e (by simp) h]
      rw [ih (fun e' he' => hl e' (by simp [he']))]
      rfl
    · rw [if_neg (by simpa using h), if_neg h]
      rw [ih (fun e' he' => hl e' (by simp [he']))]
      rfl

/-- C1: `patienceDiff(A, B)` is an exact ordered partition of both inputs:
the `a`-side indices of its Match/DeleteOnly entries, in output (hence
`aIndex`) order, are exactly `0..|A|-1` with each position once, and their
lines reconstruct `A`; symmetrically the Match/InsertOnly entries
reconstruct `B`; and every entry belongs to at least one side. -/
theorem patienceDiff_roundtrip (A B : List String) :
    aIdxs (patienceDiff A B).lines = intRange 0 ((A.length : Int) - 1) ∧
    bIdxs (patienceDiff A B).lines = intRange 0 ((B.length : Int) - 1) ∧
    (((patienceDiff A B).lines.filter (fun e => 0 ≤ e.aIndex)).map (fun e => e.line)
      = A) ∧
    (((patienceDiff A B).lines.filter (fun e => 0 ≤ e.bIndex)).map (fun e => e.line)
      = B) ∧
    ∀ e ∈ (patienceDiff A B).lines, 0 ≤ e.aIndex ∨ 0 ≤ e.bIndex := by
  have hμ : spanMeasure 0 ((A.length : Int) - 1) 0 ((B.length : Int) - 1)
      = A.length + B.length := by
    rw [spanMeasure]
    omega
  have hG := (pd_good A B (A.length + B.length)).2.2.2
    (2 * (A.length + B.length) + 5) 0 ((A.length : Int) - 1) 0 ((B.length : Int) - 1)
    (le_refl 0) (le_refl 0) (by omega) (by omega) (by rw [hμ]) (le_refl _)
  have hlines : (patienceDiff A B).lines
      = pdRun A B (2 * (A.length + B.length) + 5)
        (.lcs 0 ((A.length : Int) - 1) 0 ((B.length : Int) - 1) none) := rfl
  obtain ⟨hA, hB, hL⟩ := hG
  refine ⟨by rw [hlines]; exact hA, by rw [hlines]; exact hB, ?_, ?_, ?_⟩
  · rw [hlines]
    rw [filter_map_line_a A _ (fun e he h0 => (hL e he).1 h0)]
    rw [hA, intRange_map_getI]
  · rw [hlines]
    rw [filter_map_line_b B _ (fun e he h0 => (hL e he).2.1 h0)]
    rw [hB, intRange_map_getI]
  · intro e he
    rw [hlines] at he
    exact (hL e he).2.2
